import Mathlib

/-!
Verification of the m3db bootstrap index-results accumulator, the commit-log
durability contract, and the segment byte reader.

Time instants are modelled as integers counting nanoseconds since the zero
instant (Go `time.Time`); `time.Truncate` for a positive duration rounds down
to a multiple of the duration since the zero instant.  `xtime.ToUnixNano` is an
injective reindexing of instants and is modelled as the identity, which is
harmless because only its injectivity is ever used (it serves as a map key).

`ShardTimeRanges` and its operations (`AddRanges`, `MinMax`, `Copy`,
`IsEmpty`) are declared in this repository but their defining file is not part
of the excerpt; they are modelled from the spec (section 4.5): a mapping from
shard to a set of disjoint half-open time ranges kept coalesced
(adjacent or overlapping ranges merged) and in ascending start order.
The model is a canonical association list sorted by shard number.
-/

/-- Go `t.Truncate(d)`: round `t` down to a multiple of `d` (for `d > 0`). -/
def truncateTime (t d : Int) : Int := t - t.emod d

/-- A half-open time range `[start, stop)` (Go `xtime.Range{Start, End}`). -/
structure TsRange where
  start : Int
  stop : Int
deriving DecidableEq

/-- Membership of an instant in a half-open range. -/
def inRange (r : TsRange) (t : Int) : Prop := r.start ≤ t ∧ t < r.stop

instance (r : TsRange) (t : Int) : Decidable (inRange r t) := by
  unfold inRange; infer_instance

/-- The per-shard collection of ranges (Go `xtime.Ranges`). -/
abbrev Ranges := List TsRange

/-- Well-formedness of a per-shard range list: every range is nonempty and the
ranges are pairwise separated with a positive gap, in ascending order.  This is
the canonical form of a finite union of half-open intervals. -/
def rangesWf (rs : Ranges) : Prop :=
  (∀ r ∈ rs, r.start < r.stop) ∧ rs.Pairwise (fun a b => a.stop < b.start)

instance (rs : Ranges) : Decidable (rangesWf rs) := by
  unfold rangesWf; infer_instance

/-- The set of instants covered by a range list. -/
def cover (rs : Ranges) (t : Int) : Prop := ∃ r ∈ rs, inRange r t

instance (rs : Ranges) (t : Int) : Decidable (cover rs t) := by
  unfold cover; infer_instance

/-- Insert a nonempty range into a canonical range list, merging it with any
range it overlaps or touches.  Modelled from the spec: `AddRanges` unions,
coalescing adjacent/overlapping ranges per shard. -/
def addRangePos : Ranges → TsRange → Ranges
  | [], r => [r]
  | x :: xs, r =>
    if r.stop < x.start then r :: x :: xs
    else if x.stop < r.start then x :: addRangePos xs r
    else addRangePos xs ⟨min x.start r.start, max x.stop r.stop⟩

/-- Insert a range, ignoring empty ranges (which denote no instants). -/
def addRange (rs : Ranges) (r : TsRange) : Ranges :=
  if r.stop ≤ r.start then rs else addRangePos rs r

/-- `ShardTimeRanges`: a mapping from shard number to a canonical range list,
modelled as an association list with strictly ascending shard keys and
nonempty per-shard lists. -/
abbrev ShardTimeRanges := List (Nat × Ranges)

/-- Well-formedness of the shard map: strictly ascending keys, each entry a
well-formed nonempty range list. -/
def strWf (s : ShardTimeRanges) : Prop :=
  s.Pairwise (fun a b => a.1 < b.1) ∧ ∀ p ∈ s, rangesWf p.2 ∧ p.2 ≠ []

instance (s : ShardTimeRanges) : Decidable (strWf s) := by
  unfold strWf; infer_instance

/-- The set of (shard, instant) points covered by a `ShardTimeRanges`. -/
def strCover (s : ShardTimeRanges) (sh : Nat) (t : Int) : Prop :=
  ∃ p ∈ s, p.1 = sh ∧ cover p.2 t

instance (s : ShardTimeRanges) (sh : Nat) (t : Int) : Decidable (strCover s sh t) := by
  unfold strCover; infer_instance

/-- Insert one nonempty range for one shard, keeping shard keys sorted. -/
def strAddRangePos : ShardTimeRanges → Nat → TsRange → ShardTimeRanges
  | [], sh, r => [(sh, [r])]
  | p :: rest, sh, r =>
    if sh < p.1 then (sh, [r]) :: p :: rest
    else if sh = p.1 then (p.1, addRangePos p.2 r) :: rest
    else p :: strAddRangePos rest sh r

/-- Insert one range for one shard, ignoring empty ranges. -/
def strAddRange (s : ShardTimeRanges) (sh : Nat) (r : TsRange) : ShardTimeRanges :=
  if r.stop ≤ r.start then s else strAddRangePos s sh r

/-- Fold a list of (shard, range) pairs into a shard map. -/
def strAddPairs (s : ShardTimeRanges) (l : List (Nat × TsRange)) : ShardTimeRanges :=
  l.foldl (fun acc q => strAddRange acc q.1 q.2) s

/-- Flatten a shard map into its (shard, range) pairs. -/
def strPairs (s : ShardTimeRanges) : List (Nat × TsRange) :=
  s.flatMap (fun p => p.2.map (fun r => (p.1, r)))

/-- Go `ShardTimeRanges.AddRanges(other)`: union `other` into the receiver.
Modelled from the spec: union, coalescing adjacent/overlapping ranges per
shard (the defining file is not part of the excerpt). -/
def strAddRanges (a b : ShardTimeRanges) : ShardTimeRanges :=
  strAddPairs a (strPairs b)

/-- Fold the minimum start and maximum end over a range list. -/
def rangesMinMax (acc : Option (Int × Int)) (rs : Ranges) : Option (Int × Int) :=
  rs.foldl
    (fun a r =>
      match a with
      | none => some (r.start, r.stop)
      | some q => some (min q.1 r.start, max q.2 r.stop))
    acc

/-- Go `ShardTimeRanges.MinMax()`: earliest start and latest end across all
ranges of all shards.  Modelled from the spec: undefined on an empty
collection (the spec requires callers to check `IsEmpty()` first), so the
model returns `none` there. -/
def strMinMax (s : ShardTimeRanges) : Option (Int × Int) :=
  s.foldl (fun a p => rangesMinMax a p.2) none

/-- Go `ShardTimeRanges.IsEmpty()`: true iff no shard has any range. -/
def strIsEmpty (s : ShardTimeRanges) : Bool :=
  s.all (fun p => p.2.isEmpty)

/-- An index segment, distinguished by a runtime type check in the source
(`segment.MutableSegment` type assertion); modelled as a tagged variant per
the spec design notes.  The payload is an opaque identifier. -/
inductive Segment where
  | mutableSeg (id : Nat)
  | immutableSeg (id : Nat)
deriving DecidableEq

/-- The Go type assertion `seg.(segment.MutableSegment)` succeeding. -/
def Segment.isMutable : Segment → Bool
  | .mutableSeg _ => true
  | .immutableSeg _ => false

/-- `result.IndexBlock`: block start, ordered segment list, fulfilled ranges. -/
structure IndexBlock where
  blockStart : Int
  segments : List Segment
  fulfilled : ShardTimeRanges
deriving DecidableEq

/-- `result.NewIndexBlock` (a nil fulfilled map becomes the empty map). -/
def NewIndexBlock (blockStart : Int) (segments : List Segment)
    (fulfilled : ShardTimeRanges) : IndexBlock :=
  ⟨blockStart, segments, fulfilled⟩

/-- `IndexBlock.Merged`: keep the receiver's block start, append the other's
segments when it has any, and union the other's fulfilled ranges when they are
non-empty (otherwise keep the receiver's fulfilled ranges; `Copy` is the
identity in this pure model). -/
def IndexBlock.Merged (b other : IndexBlock) : IndexBlock :=
  { blockStart := b.blockStart
    segments :=
      if 0 < other.segments.length then b.segments ++ other.segments
      else b.segments
    fulfilled :=
      if strIsEmpty other.fulfilled then b.fulfilled
      else strAddRanges b.fulfilled other.fulfilled }

/-- `result.IndexResults`: map from block-start nanoseconds to `IndexBlock`,
modelled as an association list (`xtime.ToUnixNano` modelled as identity). -/
abbrev IndexResults := List (Int × IndexBlock)

/-- Map lookup. -/
def irLookup : IndexResults → Int → Option IndexBlock
  | [], _ => none
  | p :: rest, k => if p.1 = k then some p.2 else irLookup rest k

/-- Map store: replace the entry at the key or append a new one. -/
def irInsert : IndexResults → Int → IndexBlock → IndexResults
  | [], k, b => [(k, b)]
  | p :: rest, k, b => if p.1 = k then (k, b) :: rest else p :: irInsert rest k b

/-- Data-model invariant of `IndexResults` (spec section 3): every entry is
keyed by its block's start instant. -/
def irCoherent (r : IndexResults) : Prop :=
  ∀ p ∈ r, p.2.blockStart = p.1

/-- `IndexResults.Add`: drop blocks with a zero start instant, otherwise merge
the block into the entry at its block start (debug prints in the source are
ignored as they do not affect state). -/
def IndexResults.Add (r : IndexResults) (block : IndexBlock) : IndexResults :=
  if block.blockStart = 0 then r
  else
    match irLookup r block.blockStart with
    | none => irInsert r block.blockStart block
    | some existing => irInsert r block.blockStart (existing.Merged block)

/-- `IndexResults.AddResults`: add each block of the other collection. -/
def IndexResults.AddResults (r other : IndexResults) : IndexResults :=
  other.foldl (fun acc p => IndexResults.Add acc p.2) r

/-- `IndexResults.GetOrAddSegment`: align `t` to the index block size, ensure
an entry exists, return the first mutable segment if the block has one, and
otherwise allocate a fresh mutable segment and merge it into the block.  The
allocator outcome is passed as `alloc` (`none` models an allocator error, in
which case the map still holds the ensured entry, matching the source which
returns before the final store). -/
def IndexResults.GetOrAddSegment (r : IndexResults) (t blockSize : Int)
    (alloc : Option Nat) : IndexResults × Option Segment :=
  let blockStart := truncateTime t blockSize
  let found := irLookup r blockStart
  let block :=
    match found with
    | none => NewIndexBlock blockStart [] []
    | some b => b
  let r1 :=
    match found with
    | none => irInsert r blockStart block
    | some _ => r
  match block.segments.find? Segment.isMutable with
  | some m => (r1, some m)
  | none =>
    match alloc with
    | none => (r1, none)
    | some mid =>
      let m := Segment.mutableSeg mid
      (irInsert r1 blockStart (block.Merged (NewIndexBlock blockStart [m] [])), some m)

/-- `IndexResults.MarkFulfilled`: align `t`, validate that the fulfilled
ranges' min/max lie inside the aligned block window, and merge them into the
block at the aligned start.  Returns the possibly-updated map plus `true` when
the `RangeOutOfBlock` error is returned.  The empty-input case follows the
spec: `MinMax` is undefined on empty, and on an empty collection the zero-time
min is before any positive block start, so the validation fails. -/
def IndexResults.MarkFulfilled (r : IndexResults) (t : Int)
    (fulfilled : ShardTimeRanges) (blockSize : Int) : IndexResults × Bool :=
  let blockStart := truncateTime t blockSize
  match strMinMax fulfilled with
  | none => (r, true)
  | some q =>
    if q.1 < blockStart ∨ blockStart + blockSize < q.2 then (r, true)
    else
      let block :=
        match irLookup r blockStart with
        | none => NewIndexBlock blockStart [] []
        | some b => b
      (irInsert r blockStart (block.Merged (NewIndexBlock blockStart [] fulfilled)), false)

/-- `result.indexBootstrapResult`: index results plus unfulfilled ranges. -/
structure IndexBootstrapResultS where
  results : IndexResults
  unfulfilled : ShardTimeRanges
deriving DecidableEq

/-- `result.NewIndexBootstrapResult()`: empty results, empty unfulfilled. -/
def NewIndexBootstrapResult : IndexBootstrapResultS := ⟨[], []⟩

/-- Total number of segments across all blocks of an `IndexResults`. -/
def totalSegments (r : IndexResults) : Nat :=
  (r.map (fun p => p.2.segments.length)).sum

/-- `result.MergedIndexBootstrapResult`: nil handling, then fold the smaller
result into the one with the larger total segment count (ties favor the left
operand) and return the base. -/
def MergedIndexBootstrapResult :
    Option IndexBootstrapResultS → Option IndexBootstrapResultS →
    Option IndexBootstrapResultS
  | none, j => j
  | some i, none => some i
  | some i, some j =>
    if totalSegments j.results ≤ totalSegments i.results then
      some ⟨IndexResults.AddResults i.results j.results,
            strAddRanges i.unfulfilled j.unfulfilled⟩
    else
      some ⟨IndexResults.AddResults j.results i.results,
            strAddRanges j.unfulfilled i.unfulfilled⟩

/-- A commit-log write record.  The float64 value is treated as an opaque
64-bit pattern; identity is all the claims about the log need. -/
structure CommitLogWrite where
  namespaceId : List Nat
  seriesId : List Nat
  shard : Nat
  timestamp : Int
  value : Nat
  unit : Nat
  annot : List Nat
deriving DecidableEq

/-- The two durability strategies of the commit-log writer. -/
inductive Strategy where
  | writeWait
  | writeBehind
deriving DecidableEq

/-- Modelled from the spec: the commit-log writer state.  The commit-log
implementation itself is not part of the excerpt (only its property test is),
so the writer is modelled from spec sections 4.1 and 5: `buffer` holds
enqueued but unflushed records, `flushed` holds records durably on disk
(all log files concatenated in creation order, which is the order the
iterator reads them). -/
structure CommitLogState where
  strategy : Strategy
  opened : Bool
  buffer : List CommitLogWrite
  flushed : List CommitLogWrite
deriving DecidableEq

/-- Commands driving the commit-log writer: a caller write, a timer- or
size-triggered flush, and close. -/
inductive CLCmd where
  | write (w : CommitLogWrite)
  | flush
  | close
deriving DecidableEq

/-- Modelled from the spec: one step of the commit-log writer.  A write-wait
write is durably flushed before the call returns; a write-behind write is only
enqueued.  A flush moves the batch to disk in enqueue order.  Close flushes
all enqueued records before returning.  A write on a closed log fails (is not
accepted).  The second component reports an accepted write. -/
def clStep (s : CommitLogState) (c : CLCmd) : CommitLogState × Option CommitLogWrite :=
  match c with
  | .write w =>
    if s.opened then
      match s.strategy with
      | .writeWait => ({ s with flushed := s.flushed ++ [w] }, some w)
      | .writeBehind => ({ s with buffer := s.buffer ++ [w] }, some w)
    else (s, none)
  | .flush =>
    ({ s with flushed := s.flushed ++ s.buffer, buffer := [] }, none)
  | .close =>
    if s.opened then
      ({ s with flushed := s.flushed ++ s.buffer, buffer := [], opened := false }, none)
    else (s, none)

/-- A freshly opened commit log. -/
def clInit (strat : Strategy) : CommitLogState :=
  ⟨strat, true, [], []⟩

/-- Run a command sequence; return the final state and the accepted writes in
acceptance order. -/
def clRunAux : CommitLogState → List CLCmd → CommitLogState × List CommitLogWrite
  | s, [] => (s, [])
  | s, c :: cs =>
    let p := clStep s c
    let q := clRunAux p.1 cs
    (q.1,
      (match p.2 with
       | some w => [w]
       | none => []) ++ q.2)

/-- Modelled from the spec: a fresh iterator over the log directory yields the
decoded records of all files (with the always-true predicates). -/
def clIterate (s : CommitLogState) : List CommitLogWrite := s.flushed

/-- `xio.segmentReader` over a head/tail byte pair; `si` is the read
position.  Bytes are modelled as naturals. -/
structure SegmentReader where
  head : List Nat
  tail : List Nat
  si : Nat
deriving DecidableEq

/-- Result of one `Read` call: the bytes written into the destination buffer,
whether `io.EOF` was returned, and the reader afterwards. -/
structure ReadResult where
  bytes : List Nat
  isEOF : Bool
  reader : SegmentReader
deriving DecidableEq

/-- `segmentReader.Read(b)` with a destination buffer of length `blen`.
`copy(b, src)` transfers `min (len b) (len src)` bytes, modelled by
`take`/`drop`. -/
def SegmentReader.Read (sr : SegmentReader) (blen : Nat) : ReadResult :=
  if blen = 0 then ⟨[], false, sr⟩
  else
    let nh := sr.head.length
    let nt := sr.tail.length
    if nh + nt ≤ sr.si then ⟨[], true, sr⟩
    else
      let step1 := if sr.si < nh then (sr.head.drop sr.si).take blen else []
      let si1 := sr.si + step1.length
      if step1.length = blen then ⟨step1, false, { sr with si := si1 }⟩
      else
        let step2 :=
          if si1 < nh + nt then (sr.tail.drop (si1 - nh)).take (blen - step1.length)
          else []
        let out := step1 ++ step2
        if out.length = 0 then ⟨[], true, { sr with si := si1 + step2.length }⟩
        else ⟨out, false, { sr with si := si1 + step2.length }⟩

/-- Successive `Read` calls until `io.EOF`, concatenating the bytes produced;
fuel bounds the number of calls. -/
def SegmentReader.ReadAll : SegmentReader → Nat → Nat → List Nat
  | _, _, 0 => []
  | sr, blen, fuel + 1 =>
    let r := sr.Read blen
    if r.isEOF then [] else r.bytes ++ SegmentReader.ReadAll r.reader blen fuel

/-- A heap of `ShardTimeRanges` values addressed by references, used to model
the Go map aliasing behavior of `IndexBlock.Merged`. -/
structure STRHeap where
  cells : List (Nat × ShardTimeRanges)
  next : Nat
deriving DecidableEq

/-- Look a reference up in a cell list (an absent cell reads as the empty map). -/
def heapFind : List (Nat × ShardTimeRanges) → Nat → ShardTimeRanges
  | [], _ => []
  | c :: rest, ref => if c.1 = ref then c.2 else heapFind rest ref

/-- Read a reference. -/
def heapRead (h : STRHeap) (ref : Nat) : ShardTimeRanges :=
  heapFind h.cells ref

/-- Overwrite the value stored at a reference (mutate the Go map in place). -/
def heapWrite (h : STRHeap) (ref : Nat) (v : ShardTimeRanges) : STRHeap :=
  ⟨h.cells.map (fun c => if c.1 = ref then (c.1, v) else c), h.next⟩

/-- Allocate a fresh cell holding `v`; returns the new heap and reference. -/
def heapAlloc (h : STRHeap) (v : ShardTimeRanges) : STRHeap × Nat :=
  (⟨h.cells ++ [(h.next, v)], h.next + 1⟩, h.next)

/-- Every live reference of the heap is below the allocation counter. -/
def heapWf (h : STRHeap) : Prop :=
  ∀ c ∈ h.cells, c.1 < h.next

/-- An `IndexBlock` whose fulfilled map is held by reference, exposing which
map object the Go struct field points at. -/
structure IndexBlockRef where
  blockStart : Int
  segments : List Segment
  fulfilledRef : Nat
deriving DecidableEq

/-- `IndexBlock.Merged` on the heap model, mirroring the source's pointer
behavior exactly: `r := b` makes the result's fulfilled field point at the
receiver's map; only when the other block's fulfilled is non-empty is a fresh
copy allocated (`b.fulfilled.Copy()`) and unioned. -/
def MergedRef (h : STRHeap) (b other : IndexBlockRef) : STRHeap × IndexBlockRef :=
  let segs :=
    if 0 < other.segments.length then b.segments ++ other.segments
    else b.segments
  if strIsEmpty (heapRead h other.fulfilledRef) then
    (h, ⟨b.blockStart, segs, b.fulfilledRef⟩)
  else
    let copied := strAddRanges (heapRead h b.fulfilledRef) (heapRead h other.fulfilledRef)
    let ar := heapAlloc h copied
    (ar.1, ⟨b.blockStart, segs, ar.2⟩)

/-! Lemmas about canonical range lists. -/

theorem cover_nil (t : Int) : ¬ cover [] t := by
  rintro ⟨r, hr, _⟩
  exact absurd hr (List.not_mem_nil r)

theorem cover_cons {x : TsRange} {xs : Ranges} {t : Int} :
    cover (x :: xs) t ↔ inRange x t ∨ cover xs t := by
  constructor
  · rintro ⟨r, hr, hin⟩
    rcases List.mem_cons.mp hr with h | h
    · exact Or.inl (h ▸ hin)
    · exact Or.inr ⟨r, h, hin⟩
  · rintro (h | ⟨r, hr, hin⟩)
    · exact ⟨x, List.mem_cons_self x xs, h⟩
    · exact ⟨r, List.mem_cons_of_mem x hr, hin⟩

theorem rangesWf_cons {x : TsRange} {xs : Ranges} (h : rangesWf (x :: xs)) :
    rangesWf xs ∧ x.start < x.stop ∧ ∀ r ∈ xs, x.stop < r.start := by
  obtain ⟨hne, hpw⟩ := h
  rw [List.pairwise_cons] at hpw
  exact ⟨⟨fun r hr => hne r (List.mem_cons_of_mem x hr), hpw.2⟩,
    hne x (List.mem_cons_self x xs), hpw.1⟩

theorem addRangePos_ne_nil (rs : Ranges) (r : TsRange) : addRangePos rs r ≠ [] := by
  induction rs generalizing r with
  | nil => simp [addRangePos]
  | cons x xs ih =>
    simp only [addRangePos]
    split
    · simp
    · split
      · simp
      · exact ih _

theorem addRangePos_start_lb {c : Int} : ∀ (rs : Ranges) (r : TsRange),
    (∀ y ∈ rs, c < y.start) → c < r.start →
    ∀ y ∈ addRangePos rs r, c < y.start := by
  intro rs
  induction rs with
  | nil =>
    intro r _ hr y hy
    simp only [addRangePos, List.mem_singleton] at hy
    subst hy
    exact hr
  | cons x xs ih =>
    intro r hall hr y hy
    simp only [addRangePos] at hy
    split at hy
    · rcases List.mem_cons.mp hy with h | h
      · subst h; exact hr
      · exact hall y h
    · split at hy
      · rcases List.mem_cons.mp hy with h | h
        · rw [h]; exact hall x (List.mem_cons_self x xs)
        · exact ih r (fun z hz => hall z (List.mem_cons_of_mem x hz)) hr y h
      · refine ih _ (fun z hz => hall z (List.mem_cons_of_mem x hz)) ?_ y hy
        have hx := hall x (List.mem_cons_self x xs)
        simp only
        omega

theorem addRangePos_wf : ∀ (rs : Ranges) (r : TsRange), rangesWf rs → r.start < r.stop →
    rangesWf (addRangePos rs r) := by
  intro rs
  induction rs with
  | nil =>
    intro r _ hr
    constructor
    · intro q hq
      simp only [addRangePos, List.mem_singleton] at hq
      rw [hq]
      exact hr
    · simp [addRangePos]
  | cons x xs ih =>
    intro r hwf hr
    obtain ⟨hxs, hx, hgap⟩ := rangesWf_cons hwf
    simp only [addRangePos]
    split
    · rename_i h1
      constructor
      · intro q hq
        rcases List.mem_cons.mp hq with h | h
        · subst h; exact hr
        · exact hwf.1 q h
      · rw [List.pairwise_cons]
        refine ⟨?_, hwf.2⟩
        intro b hb
        rcases List.mem_cons.mp hb with h | h
        · subst h; exact h1
        · have := hgap b h; omega
    · split
      · rename_i h1 h2
        have hrec := ih r hxs hr
        constructor
        · intro q hq
          rcases List.mem_cons.mp hq with h | h
          · subst h; exact hx
          · exact hrec.1 q h
        · rw [List.pairwise_cons]
          exact ⟨addRangePos_start_lb xs r hgap h2, hrec.2⟩
      · rename_i h1 h2
        refine ih _ hxs ?_
        simp only
        omega

theorem addRangePos_cover : ∀ (rs : Ranges) (r : TsRange), rangesWf rs → r.start < r.stop →
    ∀ t, cover (addRangePos rs r) t ↔ cover rs t ∨ inRange r t := by
  intro rs
  induction rs with
  | nil =>
    intro r _ _ t
    rw [addRangePos, cover_cons]
    constructor
    · rintro (h | h)
      · exact Or.inr h
      · exact absurd h (cover_nil t)
    · rintro (h | h)
      · exact absurd h (cover_nil t)
      · exact Or.inl h
  | cons x xs ih =>
    intro r hwf hr t
    obtain ⟨hxs, hx, hgap⟩ := rangesWf_cons hwf
    simp only [addRangePos]
    split
    · simp only [cover_cons]
      tauto
    · split
      · rw [cover_cons, cover_cons, ih r hxs hr t]
        tauto
      · rename_i h1 h2
        have hm : (⟨min x.start r.start, max x.stop r.stop⟩ : TsRange).start <
            (⟨min x.start r.start, max x.stop r.stop⟩ : TsRange).stop := by
          simp only
          omega
        rw [ih _ hxs hm t, cover_cons]
        have hun : inRange ⟨min x.start r.start, max x.stop r.stop⟩ t ↔
            inRange x t ∨ inRange r t := by
          simp only [inRange]
          omega
        rw [hun]
        tauto

theorem addRangePos_bounds {lo hi : Int} : ∀ (rs : Ranges) (r : TsRange),
    (∀ y ∈ rs, lo ≤ y.start ∧ y.stop ≤ hi) → lo ≤ r.start → r.stop ≤ hi →
    ∀ y ∈ addRangePos rs r, lo ≤ y.start ∧ y.stop ≤ hi := by
  intro rs
  induction rs with
  | nil =>
    intro r _ h1 h2 y hy
    simp only [addRangePos, List.mem_singleton] at hy
    subst hy
    exact ⟨h1, h2⟩
  | cons x xs ih =>
    intro r hall h1 h2 y hy
    have hx := hall x (List.mem_cons_self x xs)
    have hxs : ∀ y ∈ xs, lo ≤ y.start ∧ y.stop ≤ hi :=
      fun z hz => hall z (List.mem_cons_of_mem x hz)
    simp only [addRangePos] at hy
    split at hy
    · rcases List.mem_cons.mp hy with h | h
      · subst h; exact ⟨h1, h2⟩
      · exact hall y h
    · split at hy
      · rcases List.mem_cons.mp hy with h | h
        · subst h; exact hx
        · exact ih r hxs h1 h2 y h
      · refine ih _ hxs ?_ ?_ y hy
        · simp only; omega
        · simp only; omega

theorem addRange_wf (rs : Ranges) (r : TsRange) (h : rangesWf rs) :
    rangesWf (addRange rs r) := by
  unfold addRange
  split
  · exact h
  · rename_i hle
    exact addRangePos_wf rs r h (by omega)

theorem addRange_cover (rs : Ranges) (r : TsRange) (h : rangesWf rs) (t : Int) :
    cover (addRange rs r) t ↔ cover rs t ∨ inRange r t := by
  unfold addRange
  split
  · rename_i hle
    simp only [inRange]
    constructor
    · exact Or.inl
    · rintro (hc | ⟨ha, hb⟩)
      · exact hc
      · omega
  · rename_i hle
    exact addRangePos_cover rs r h (by omega) t

theorem addRange_bounds {lo hi : Int} (rs : Ranges) (r : TsRange)
    (hall : ∀ y ∈ rs, lo ≤ y.start ∧ y.stop ≤ hi)
    (hr : r.start < r.stop → lo ≤ r.start ∧ r.stop ≤ hi) :
    ∀ y ∈ addRange rs r, lo ≤ y.start ∧ y.stop ≤ hi := by
  unfold addRange
  split
  · exact hall
  · rename_i hle
    have hb := hr (by omega)
    exact addRangePos_bounds rs r hall hb.1 hb.2

theorem cover_head_start {x : TsRange} {xs : Ranges} (h : rangesWf (x :: xs)) :
    cover (x :: xs) x.start :=
  ⟨x, List.mem_cons_self x xs, le_refl _, (rangesWf_cons h).2.1⟩

theorem cover_ge_head {x : TsRange} {xs : Ranges} (h : rangesWf (x :: xs)) {t : Int}
    (hc : cover (x :: xs) t) : x.start ≤ t := by
  obtain ⟨hxs, hx, hgap⟩ := rangesWf_cons h
  rcases cover_cons.mp hc with h1 | ⟨r, hr, h2⟩
  · exact h1.1
  · have := hgap r hr
    have := h2.1
    omega

theorem cover_tail_gt {x : TsRange} {xs : Ranges} (h : rangesWf (x :: xs)) {t : Int}
    (hc : cover xs t) : x.stop < t := by
  obtain ⟨hxs, hx, hgap⟩ := rangesWf_cons h
  obtain ⟨r, hr, h2⟩ := hc
  have := hgap r hr
  have := h2.1
  omega

theorem rangesWf_ext : ∀ (a b : Ranges), rangesWf a → rangesWf b →
    (∀ t, cover a t ↔ cover b t) → a = b := by
  intro a
  induction a with
  | nil =>
    intro b _ hb h
    cases b with
    | nil => rfl
    | cons y ys =>
      exact absurd ((h y.start).mpr (cover_head_start hb)) (cover_nil y.start)
  | cons x xs ih =>
    intro b ha hb h
    cases b with
    | nil => exact absurd ((h x.start).mp (cover_head_start ha)) (cover_nil x.start)
    | cons y ys =>
      have hstart : x.start = y.start := by
        have h1 := cover_ge_head hb ((h x.start).mp (cover_head_start ha))
        have h2 := cover_ge_head ha ((h y.start).mpr (cover_head_start hb))
        omega
      have hstop : x.stop = y.stop := by
        by_contra hne
        rcases lt_or_gt_of_ne hne with hlt | hgt
        · have hyc : cover (y :: ys) x.stop := by
            refine cover_cons.mpr (Or.inl ⟨?_, hlt⟩)
            have := (rangesWf_cons ha).2.1
            omega
          have hac := (h x.stop).mpr hyc
          rcases cover_cons.mp hac with h1 | h1
          · exact absurd h1.2 (lt_irrefl _)
          · have := cover_tail_gt ha h1
            omega
        · have hxc : cover (x :: xs) y.stop := by
            refine cover_cons.mpr (Or.inl ⟨?_, hgt⟩)
            have := (rangesWf_cons hb).2.1
            omega
          have hbc := (h y.stop).mp hxc
          rcases cover_cons.mp hbc with h1 | h1
          · exact absurd h1.2 (lt_irrefl _)
          · have := cover_tail_gt hb h1
            omega
      have hxy : x = y := by
        cases x
        cases y
        simp_all
      cases hxy
      have htail : ∀ t, cover xs t ↔ cover ys t := by
        intro t
        constructor
        · intro hc
          have hgt := cover_tail_gt ha hc
          have hcb := (h t).mp (cover_cons.mpr (Or.inr hc))
          rcases cover_cons.mp hcb with h1 | h1
          · exfalso
            have := h1.2
            omega
          · exact h1
        · intro hc
          have hgt := cover_tail_gt hb hc
          have hca := (h t).mpr (cover_cons.mpr (Or.inr hc))
          rcases cover_cons.mp hca with h1 | h1
          · exfalso
            have := h1.2
            omega
          · exact h1
      rw [ih ys (rangesWf_cons ha).1 (rangesWf_cons hb).1 htail]

/-! Lemmas about the shard map. -/

theorem rangesWf_singleton {r : TsRange} (h : r.start < r.stop) : rangesWf [r] := by
  constructor
  · intro z hz
    simp only [List.mem_singleton] at hz
    rw [hz]
    exact h
  · simp

theorem strWf_nil : strWf ([] : ShardTimeRanges) := by
  constructor <;> simp

theorem strWf_cons {p : Nat × Ranges} {rest : ShardTimeRanges} (h : strWf (p :: rest)) :
    strWf rest ∧ rangesWf p.2 ∧ p.2 ≠ [] ∧ ∀ q ∈ rest, p.1 < q.1 := by
  obtain ⟨hpw, hent⟩ := h
  rw [List.pairwise_cons] at hpw
  exact ⟨⟨hpw.2, fun q hq => hent q (List.mem_cons_of_mem p hq)⟩,
    (hent p (List.mem_cons_self p rest)).1, (hent p (List.mem_cons_self p rest)).2, hpw.1⟩

theorem strCover_nil (sh : Nat) (t : Int) : ¬ strCover [] sh t := by
  rintro ⟨p, hp, _⟩
  exact absurd hp (List.not_mem_nil p)

theorem strCover_cons {p : Nat × Ranges} {rest : ShardTimeRanges} {sh : Nat} {t : Int} :
    strCover (p :: rest) sh t ↔ (p.1 = sh ∧ cover p.2 t) ∨ strCover rest sh t := by
  constructor
  · rintro ⟨q, hq, h1, h2⟩
    rcases List.mem_cons.mp hq with h | h
    · rw [h] at h1 h2
      exact Or.inl ⟨h1, h2⟩
    · exact Or.inr ⟨q, h, h1, h2⟩
  · rintro (⟨h1, h2⟩ | ⟨q, hq, h1, h2⟩)
    · exact ⟨p, List.mem_cons_self p rest, h1, h2⟩
    · exact ⟨q, List.mem_cons_of_mem p hq, h1, h2⟩

theorem strAddRangePos_key_lb {c : Nat} : ∀ (s : ShardTimeRanges) (sh : Nat) (r : TsRange),
    (∀ q ∈ s, c < q.1) → c < sh → ∀ q ∈ strAddRangePos s sh r, c < q.1 := by
  intro s
  induction s with
  | nil =>
    intro sh r _ hsh q hq
    simp only [strAddRangePos, List.mem_singleton] at hq
    rw [hq]
    exact hsh
  | cons p rest ih =>
    intro sh r hall hsh q hq
    simp only [strAddRangePos] at hq
    split at hq
    · rcases List.mem_cons.mp hq with h | h
      · rw [h]; exact hsh
      · exact hall q h
    · split at hq
      · rcases List.mem_cons.mp hq with h | h
        · rw [h]
          show c < p.1
          exact hall p (List.mem_cons_self p rest)
        · exact hall q (List.mem_cons_of_mem p h)
      · rcases List.mem_cons.mp hq with h | h
        · rw [h]; exact hall p (List.mem_cons_self p rest)
        · exact ih sh r (fun z hz => hall z (List.mem_cons_of_mem p hz)) hsh q h

theorem strAddRangePos_wf : ∀ (s : ShardTimeRanges) (sh : Nat) (r : TsRange), strWf s →
    r.start < r.stop → strWf (strAddRangePos s sh r) := by
  intro s
  induction s with
  | nil =>
    intro sh r _ hr
    constructor
    · simp [strAddRangePos]
    · intro q hq
      simp only [strAddRangePos, List.mem_singleton] at hq
      rw [hq]
      exact ⟨rangesWf_singleton hr, by simp⟩
  | cons p rest ih =>
    intro sh r hwf hr
    obtain ⟨hrest, hpwf, hpne, hgt⟩ := strWf_cons hwf
    simp only [strAddRangePos]
    split
    · rename_i h1
      constructor
      · rw [List.pairwise_cons]
        constructor
        · intro b hb
          rcases List.mem_cons.mp hb with h | h
          · rw [h]
            show sh < p.1
            exact h1
          · have := hgt b h
            show sh < b.1
            omega
        · exact hwf.1
      · intro q hq
        rcases List.mem_cons.mp hq with h | h
        · rw [h]
          exact ⟨rangesWf_singleton hr, by simp⟩
        · exact hwf.2 q h
    · split
      · rename_i h1 h2
        constructor
        · rw [List.pairwise_cons]
          constructor
          · intro b hb
            show p.1 < b.1
            exact hgt b hb
          · exact hrest.1
        · intro q hq
          rcases List.mem_cons.mp hq with h | h
          · rw [h]
            exact ⟨addRangePos_wf p.2 r hpwf hr, addRangePos_ne_nil p.2 r⟩
          · exact hrest.2 q h
      · rename_i h1 h2
        have hsh : p.1 < sh := by omega
        constructor
        · rw [List.pairwise_cons]
          constructor
          · intro b hb
            show p.1 < b.1
            exact strAddRangePos_key_lb rest sh r hgt hsh b hb
          · exact (ih sh r hrest hr).1
        · intro q hq
          rcases List.mem_cons.mp hq with h | h
          · rw [h]
            exact ⟨hpwf, hpne⟩
          · exact (ih sh r hrest hr).2 q h

theorem cover_singleton {r : TsRange} {t : Int} : cover [r] t ↔ inRange r t := by
  rw [cover_cons]
  exact ⟨fun h => h.elim id (fun hh => absurd hh (cover_nil t)), Or.inl⟩

theorem strAddRangePos_cover : ∀ (s : ShardTimeRanges) (sh : Nat) (r : TsRange), strWf s →
    r.start < r.stop → ∀ sh2 t,
    strCover (strAddRangePos s sh r) sh2 t ↔ strCover s sh2 t ∨ (sh2 = sh ∧ inRange r t) := by
  intro s
  induction s with
  | nil =>
    intro sh r _ hr sh2 t
    simp only [strAddRangePos]
    rw [strCover_cons]
    constructor
    · rintro (⟨h1, h2⟩ | h)
      · exact Or.inr ⟨h1.symm, cover_singleton.mp h2⟩
      · exact absurd h (strCover_nil sh2 t)
    · rintro (h | ⟨h1, h2⟩)
      · exact absurd h (strCover_nil sh2 t)
      · exact Or.inl ⟨h1.symm, cover_singleton.mpr h2⟩
  | cons p rest ih =>
    intro sh r hwf hr sh2 t
    obtain ⟨hrest, hpwf, hpne, hgt⟩ := strWf_cons hwf
    simp only [strAddRangePos]
    split
    · rename_i h1
      have h3 : (((sh, [r]) : Nat × Ranges).1 = sh2 ∧ cover [r] t) ↔
          (sh2 = sh ∧ inRange r t) := by
        rw [cover_singleton]
        constructor
        · rintro ⟨ha, hb⟩
          exact ⟨ha.symm, hb⟩
        · rintro ⟨ha, hb⟩
          exact ⟨ha.symm, hb⟩
      rw [strCover_cons, h3]
      tauto
    · split
      · rename_i h1 h2
        rw [strCover_cons, strCover_cons]
        have h3 : cover (addRangePos p.2 r) t ↔ cover p.2 t ∨ inRange r t :=
          addRangePos_cover p.2 r hpwf hr t
        constructor
        · rintro (⟨ha, hb⟩ | h)
          · rcases h3.mp hb with hc | hc
            · exact Or.inl (Or.inl ⟨ha, hc⟩)
            · refine Or.inr ⟨?_, hc⟩
              rw [← ha, ← h2]
          · exact Or.inl (Or.inr h)
        · rintro ((⟨ha, hb⟩ | h) | ⟨ha, hb⟩)
          · exact Or.inl ⟨ha, h3.mpr (Or.inl hb)⟩
          · exact Or.inr h
          · refine Or.inl ⟨?_, h3.mpr (Or.inr hb)⟩
            rw [← h2, ← ha]
      · rename_i h1 h2
        rw [strCover_cons, strCover_cons, ih sh r hrest hr sh2 t]
        tauto

theorem strAddRangePos_bounds {lo hi : Int} : ∀ (s : ShardTimeRanges) (sh : Nat) (r : TsRange),
    (∀ p ∈ s, ∀ rg ∈ p.2, lo ≤ rg.start ∧ rg.stop ≤ hi) → lo ≤ r.start → r.stop ≤ hi →
    ∀ p ∈ strAddRangePos s sh r, ∀ rg ∈ p.2, lo ≤ rg.start ∧ rg.stop ≤ hi := by
  intro s
  induction s with
  | nil =>
    intro sh r _ h1 h2 p hp rg hrg
    simp only [strAddRangePos, List.mem_singleton] at hp
    rw [hp] at hrg
    simp only [List.mem_singleton] at hrg
    rw [hrg]
    exact ⟨h1, h2⟩
  | cons q rest ih =>
    intro sh r hall h1 h2 p hp rg hrg
    have hq := hall q (List.mem_cons_self q rest)
    have hrest : ∀ z ∈ rest, ∀ rg ∈ z.2, lo ≤ rg.start ∧ rg.stop ≤ hi :=
      fun z hz => hall z (List.mem_cons_of_mem q hz)
    simp only [strAddRangePos] at hp
    split at hp
    · rcases List.mem_cons.mp hp with h | h
      · rw [h] at hrg
        simp only [List.mem_singleton] at hrg
        rw [hrg]
        exact ⟨h1, h2⟩
      · exact hall p h rg hrg
    · split at hp
      · rcases List.mem_cons.mp hp with h | h
        · rw [h] at hrg
          exact addRangePos_bounds q.2 r hq h1 h2 rg hrg
        · exact hrest p h rg hrg
      · rcases List.mem_cons.mp hp with h | h
        · rw [h] at hrg
          exact hq rg hrg
        · exact ih sh r hrest h1 h2 p h rg hrg

theorem strAddRange_wf (s : ShardTimeRanges) (sh : Nat) (r : TsRange) (h : strWf s) :
    strWf (strAddRange s sh r) := by
  unfold strAddRange
  split
  · exact h
  · rename_i hle
    exact strAddRangePos_wf s sh r h (by omega)

theorem strAddRange_cover (s : ShardTimeRanges) (sh : Nat) (r : TsRange) (h : strWf s)
    (sh2 : Nat) (t : Int) :
    strCover (strAddRange s sh r) sh2 t ↔ strCover s sh2 t ∨ (sh2 = sh ∧ inRange r t) := by
  unfold strAddRange
  split
  · rename_i hle
    constructor
    · exact Or.inl
    · rintro (hc | ⟨h1, h2⟩)
      · exact hc
      · simp only [inRange] at h2
        omega
  · rename_i hle
    exact strAddRangePos_cover s sh r h (by omega) sh2 t

theorem strAddRange_bounds {lo hi : Int} (s : ShardTimeRanges) (sh : Nat) (r : TsRange)
    (hall : ∀ p ∈ s, ∀ rg ∈ p.2, lo ≤ rg.start ∧ rg.stop ≤ hi)
    (hr : r.start < r.stop → lo ≤ r.start ∧ r.stop ≤ hi) :
    ∀ p ∈ strAddRange s sh r, ∀ rg ∈ p.2, lo ≤ rg.start ∧ rg.stop ≤ hi := by
  unfold strAddRange
  split
  · exact hall
  · rename_i hle
    have hb := hr (by omega)
    exact strAddRangePos_bounds s sh r hall hb.1 hb.2

theorem strAddPairs_wf : ∀ (l : List (Nat × TsRange)) (s : ShardTimeRanges), strWf s →
    strWf (strAddPairs s l) := by
  intro l
  induction l with
  | nil =>
    intro s h
    exact h
  | cons q l ih =>
    intro s h
    show strWf (strAddPairs (strAddRange s q.1 q.2) l)
    exact ih _ (strAddRange_wf s q.1 q.2 h)

theorem strAddPairs_cover : ∀ (l : List (Nat × TsRange)) (s : ShardTimeRanges), strWf s →
    ∀ sh t, strCover (strAddPairs s l) sh t ↔
      strCover s sh t ∨ ∃ q ∈ l, q.1 = sh ∧ inRange q.2 t := by
  intro l
  induction l with
  | nil =>
    intro s h sh t
    simp [strAddPairs]
  | cons q l ih =>
    intro s h sh t
    have h2 := ih (strAddRange s q.1 q.2) (strAddRange_wf s q.1 q.2 h) sh t
    rw [show strAddPairs s (q :: l) = strAddPairs (strAddRange s q.1 q.2) l from rfl, h2,
      strAddRange_cover s q.1 q.2 h sh t]
    constructor
    · rintro ((hc | ⟨h1, h3⟩) | ⟨z, hz, h1, h3⟩)
      · exact Or.inl hc
      · exact Or.inr ⟨q, List.mem_cons_self q l, h1.symm, h3⟩
      · exact Or.inr ⟨z, List.mem_cons_of_mem q hz, h1, h3⟩
    · rintro (hc | ⟨z, hz, h1, h3⟩)
      · exact Or.inl (Or.inl hc)
      · rcases List.mem_cons.mp hz with hh | hh
        · refine Or.inl (Or.inr ?_)
          rw [hh] at h1 h3
          exact ⟨h1.symm, h3⟩
        · exact Or.inr ⟨z, hh, h1, h3⟩

theorem strAddPairs_bounds {lo hi : Int} : ∀ (l : List (Nat × TsRange)) (s : ShardTimeRanges),
    (∀ p ∈ s, ∀ rg ∈ p.2, lo ≤ rg.start ∧ rg.stop ≤ hi) →
    (∀ q ∈ l, q.2.start < q.2.stop → lo ≤ q.2.start ∧ q.2.stop ≤ hi) →
    ∀ p ∈ strAddPairs s l, ∀ rg ∈ p.2, lo ≤ rg.start ∧ rg.stop ≤ hi := by
  intro l
  induction l with
  | nil =>
    intro s hs _
    exact hs
  | cons q l ih =>
    intro s hs hl
    show ∀ p ∈ strAddPairs (strAddRange s q.1 q.2) l, ∀ rg ∈ p.2, lo ≤ rg.start ∧ rg.stop ≤ hi
    exact ih _ (strAddRange_bounds s q.1 q.2 hs (hl q (List.mem_cons_self q l)))
      (fun z hz => hl z (List.mem_cons_of_mem q hz))

theorem strCover_iff_pairs (s : ShardTimeRanges) (sh : Nat) (t : Int) :
    strCover s sh t ↔ ∃ q ∈ strPairs s, q.1 = sh ∧ inRange q.2 t := by
  simp only [strPairs, List.mem_flatMap, List.mem_map, strCover, cover]
  constructor
  · rintro ⟨p, hp, h1, r, hr, h2⟩
    exact ⟨(p.1, r), ⟨p, hp, r, hr, rfl⟩, h1, h2⟩
  · rintro ⟨q, ⟨p, hp, r, hr, hq⟩, h1, h2⟩
    rw [← hq] at h1 h2
    exact ⟨p, hp, h1, r, hr, h2⟩

theorem strPairs_mem {s : ShardTimeRanges} {q : Nat × TsRange} (h : q ∈ strPairs s) :
    ∃ p ∈ s, p.1 = q.1 ∧ q.2 ∈ p.2 := by
  simp only [strPairs, List.mem_flatMap, List.mem_map] at h
  obtain ⟨p, hp, r, hr, hq⟩ := h
  rw [← hq]
  exact ⟨p, hp, rfl, hr⟩

theorem strAddRanges_wf (a b : ShardTimeRanges) (ha : strWf a) : strWf (strAddRanges a b) :=
  strAddPairs_wf (strPairs b) a ha

theorem strAddRanges_cover (a b : ShardTimeRanges) (ha : strWf a) (sh : Nat) (t : Int) :
    strCover (strAddRanges a b) sh t ↔ strCover a sh t ∨ strCover b sh t := by
  rw [strAddRanges, strAddPairs_cover (strPairs b) a ha sh t, ← strCover_iff_pairs b sh t]

theorem strAddRanges_bounds {lo hi : Int} (a b : ShardTimeRanges)
    (hb1 : ∀ p ∈ a, ∀ rg ∈ p.2, lo ≤ rg.start ∧ rg.stop ≤ hi)
    (hb2 : ∀ p ∈ b, ∀ rg ∈ p.2, lo ≤ rg.start ∧ rg.stop ≤ hi) :
    ∀ p ∈ strAddRanges a b, ∀ rg ∈ p.2, lo ≤ rg.start ∧ rg.stop ≤ hi := by
  refine strAddPairs_bounds (strPairs b) a hb1 ?_
  intro q hq _
  obtain ⟨p, hp, h1, h2⟩ := strPairs_mem hq
  exact hb2 p hp q.2 h2

theorem strAddRanges_nil_right (a : ShardTimeRanges) : strAddRanges a [] = a := rfl

theorem strCover_key_ge {p : Nat × Ranges} {rest : ShardTimeRanges} (h : strWf (p :: rest))
    {sh : Nat} {t : Int} (hc : strCover (p :: rest) sh t) : p.1 ≤ sh := by
  obtain ⟨hrest, hpwf, hpne, hgt⟩ := strWf_cons h
  rcases strCover_cons.mp hc with ⟨h1, _⟩ | ⟨q, hq, h1, _⟩
  · omega
  · have := hgt q hq
    omega

theorem strCover_head_exists {p : Nat × Ranges} {rest : ShardTimeRanges}
    (h : strWf (p :: rest)) : ∃ t, strCover (p :: rest) p.1 t := by
  obtain ⟨hrest, hpwf, hpne, hgt⟩ := strWf_cons h
  cases hrg : p.2 with
  | nil => exact absurd hrg hpne
  | cons r rs =>
    refine ⟨r.start, strCover_cons.mpr (Or.inl ⟨rfl, ?_⟩)⟩
    rw [hrg]
    exact cover_head_start (hrg ▸ hpwf)

theorem strCover_tail_ne {p : Nat × Ranges} {rest : ShardTimeRanges} (h : strWf (p :: rest))
    {t : Int} : ¬ strCover rest p.1 t := by
  obtain ⟨hrest, hpwf, hpne, hgt⟩ := strWf_cons h
  rintro ⟨q, hq, h1, _⟩
  have := hgt q hq
  omega

theorem strWf_ext : ∀ (a b : ShardTimeRanges), strWf a → strWf b →
    (∀ sh t, strCover a sh t ↔ strCover b sh t) → a = b := by
  intro a
  induction a with
  | nil =>
    intro b _ hb h
    cases b with
    | nil => rfl
    | cons q rest =>
      obtain ⟨t, ht⟩ := strCover_head_exists hb
      exact absurd ((h q.1 t).mpr ht) (strCover_nil q.1 t)
  | cons p arest ih =>
    intro b ha hb h
    cases b with
    | nil =>
      obtain ⟨t, ht⟩ := strCover_head_exists ha
      exact absurd ((h p.1 t).mp ht) (strCover_nil p.1 t)
    | cons q brest =>
      have hkey : p.1 = q.1 := by
        obtain ⟨t1, ht1⟩ := strCover_head_exists ha
        obtain ⟨t2, ht2⟩ := strCover_head_exists hb
        have h1 := strCover_key_ge hb ((h p.1 t1).mp ht1)
        have h2 := strCover_key_ge ha ((h q.1 t2).mpr ht2)
        omega
      have hranges : p.2 = q.2 := by
        refine rangesWf_ext p.2 q.2 (strWf_cons ha).2.1 (strWf_cons hb).2.1 ?_
        intro t
        constructor
        · intro hc
          have hcb := (h p.1 t).mp (strCover_cons.mpr (Or.inl ⟨rfl, hc⟩))
          rcases strCover_cons.mp hcb with ⟨h1, h2⟩ | hcc
          · exact h2
          · rw [hkey] at hcc
            exact absurd hcc (strCover_tail_ne hb)
        · intro hc
          have hca := (h p.1 t).mpr (strCover_cons.mpr (Or.inl ⟨hkey.symm, hc⟩))
          rcases strCover_cons.mp hca with ⟨h1, h2⟩ | hcc
          · exact h2
          · exact absurd hcc (strCover_tail_ne ha)
      have hpq : p = q := by
        obtain ⟨p1, p2⟩ := p
        obtain ⟨q1, q2⟩ := q
        simp only at hkey hranges
        rw [hkey, hranges]
      cases hpq
      have htail : ∀ sh t, strCover arest sh t ↔ strCover brest sh t := by
        intro sh t
        by_cases hsh : sh = p.1
        · rw [hsh]
          constructor
          · intro hc
            exact absurd hc (strCover_tail_ne ha)
          · intro hc
            exact absurd hc (strCover_tail_ne hb)
        · constructor
          · intro hc
            have hcb := (h sh t).mp (strCover_cons.mpr (Or.inr hc))
            rcases strCover_cons.mp hcb with ⟨h1, _⟩ | hcc
            · exact absurd h1.symm hsh
            · exact hcc
          · intro hc
            have hca := (h sh t).mpr (strCover_cons.mpr (Or.inr hc))
            rcases strCover_cons.mp hca with ⟨h1, _⟩ | hcc
            · exact absurd h1.symm hsh
            · exact hcc
      rw [ih brest (strWf_cons ha).1 (strWf_cons hb).1 htail]

theorem strAddRanges_comm (a b : ShardTimeRanges) (ha : strWf a) (hb : strWf b) :
    strAddRanges a b = strAddRanges b a := by
  refine strWf_ext _ _ (strAddRanges_wf a b ha) (strAddRanges_wf b a hb) ?_
  intro sh t
  rw [strAddRanges_cover a b ha sh t, strAddRanges_cover b a hb sh t]
  tauto

theorem strAddRanges_nil_left (b : ShardTimeRanges) (hb : strWf b) :
    strAddRanges [] b = b := by
  refine strWf_ext _ _ (strAddRanges_wf [] b strWf_nil) hb ?_
  intro sh t
  rw [strAddRanges_cover [] b strWf_nil sh t]
  constructor
  · rintro (hc | hc)
    · exact absurd hc (strCover_nil sh t)
    · exact hc
  · exact Or.inr

/-! Lemmas about MinMax, IsEmpty and the results map. -/

theorem strIsEmpty_iff_nil {s : ShardTimeRanges} (h : strWf s) : strIsEmpty s = true ↔ s = [] := by
  cases s with
  | nil => simp [strIsEmpty]
  | cons p rest =>
    constructor
    · intro hh
      exfalso
      have h1 : p.2.isEmpty = true := by
        simp only [strIsEmpty, List.all_cons, Bool.and_eq_true] at hh
        exact hh.1
      exact (strWf_cons h).2.2.1 (List.isEmpty_iff.mp h1)
    · intro hh
      exact absurd hh (List.cons_ne_nil p rest)

theorem strIsEmpty_false {s : ShardTimeRanges} (h : strIsEmpty s = false) :
    ∃ p ∈ s, p.2 ≠ [] := by
  simp only [strIsEmpty, List.all_eq_false] at h
  obtain ⟨p, hp, hf⟩ := h
  refine ⟨p, hp, ?_⟩
  intro hh
  rw [hh] at hf
  simp at hf

theorem rangesMinMax_isSome : ∀ (rs : Ranges) (acc : Option (Int × Int)),
    acc.isSome = true ∨ rs ≠ [] → (rangesMinMax acc rs).isSome = true := by
  intro rs
  induction rs with
  | nil =>
    rintro acc (h | h)
    · exact h
    · exact absurd rfl h
  | cons r rs ih =>
    intro acc _
    cases acc with
    | none =>
      have hstep : rangesMinMax none (r :: rs) = rangesMinMax (some (r.start, r.stop)) rs := rfl
      rw [hstep]
      exact ih _ (Or.inl rfl)
    | some q =>
      obtain ⟨q1, q2⟩ := q
      have hstep : rangesMinMax (some (q1, q2)) (r :: rs) =
          rangesMinMax (some (min q1 r.start, max q2 r.stop)) rs := rfl
      rw [hstep]
      exact ih _ (Or.inl rfl)

theorem rangesMinMax_acc_mono : ∀ (rs : Ranges) (q1 q2 : Int),
    ∃ v1 v2, rangesMinMax (some (q1, q2)) rs = some (v1, v2) ∧ v1 ≤ q1 ∧ q2 ≤ v2 := by
  intro rs
  induction rs with
  | nil =>
    intro q1 q2
    exact ⟨q1, q2, rfl, le_refl _, le_refl _⟩
  | cons r rs ih =>
    intro q1 q2
    obtain ⟨v1, v2, hv, h1, h2⟩ := ih (min q1 r.start) (max q2 r.stop)
    exact ⟨v1, v2, hv, by omega, by omega⟩

theorem rangesMinMax_bounds : ∀ (rs : Ranges) (acc : Option (Int × Int)) (mn mx : Int),
    rangesMinMax acc rs = some (mn, mx) →
    (∀ q1 q2, acc = some (q1, q2) → mn ≤ q1 ∧ q2 ≤ mx) ∧
    ∀ r ∈ rs, mn ≤ r.start ∧ r.stop ≤ mx := by
  intro rs
  induction rs with
  | nil =>
    intro acc mn mx h
    simp only [rangesMinMax, List.foldl_nil] at h
    constructor
    · intro q1 q2 hq
      rw [hq] at h
      simp only [Option.some.injEq, Prod.mk.injEq] at h
      omega
    · intro r hr
      exact absurd hr (List.not_mem_nil r)
  | cons r rs ih =>
    intro acc mn mx h
    cases acc with
    | none =>
      have h2 := ih (some (r.start, r.stop)) mn mx h
      have hb := h2.1 r.start r.stop rfl
      constructor
      · intro q1 q2 hq
        exact absurd hq (by simp)
      · intro z hz
        rcases List.mem_cons.mp hz with hh | hh
        · rw [hh]
          exact hb
        · exact h2.2 z hh
    | some a =>
      obtain ⟨a1, a2⟩ := a
      have h2 := ih (some (min a1 r.start, max a2 r.stop)) mn mx h
      have hb := h2.1 (min a1 r.start) (max a2 r.stop) rfl
      constructor
      · intro q1 q2 hq
        simp only [Option.some.injEq, Prod.mk.injEq] at hq
        omega
      · intro z hz
        rcases List.mem_cons.mp hz with hh | hh
        · rw [hh]
          constructor <;> omega
        · exact h2.2 z hh

theorem strMinMax_bounds : ∀ (s : ShardTimeRanges) (acc : Option (Int × Int)) (mn mx : Int),
    s.foldl (fun a p => rangesMinMax a p.2) acc = some (mn, mx) →
    (∀ q1 q2, acc = some (q1, q2) → mn ≤ q1 ∧ q2 ≤ mx) ∧
    ∀ p ∈ s, ∀ r ∈ p.2, mn ≤ r.start ∧ r.stop ≤ mx := by
  intro s
  induction s with
  | nil =>
    intro acc mn mx h
    simp only [List.foldl_nil] at h
    constructor
    · intro q1 q2 hq
      rw [hq] at h
      simp only [Option.some.injEq, Prod.mk.injEq] at h
      omega
    · intro p hp
      exact absurd hp (List.not_mem_nil p)
  | cons p rest ih =>
    intro acc mn mx h
    have h2 := ih (rangesMinMax acc p.2) mn mx h
    have h3 : ∀ q1 q2, acc = some (q1, q2) → mn ≤ q1 ∧ q2 ≤ mx := by
      intro q1 q2 hq
      obtain ⟨v1, v2, hv, hm1, hm2⟩ := rangesMinMax_acc_mono p.2 q1 q2
      have := h2.1 v1 v2 (by rw [hq]; exact hv)
      omega
    refine ⟨h3, ?_⟩
    intro z hz r hr
    rcases List.mem_cons.mp hz with hh | hh
    · rw [hh] at hr
      have hne : p.2 ≠ [] := by
        intro hnil
        rw [hnil] at hr
        exact absurd hr (List.not_mem_nil r)
      have hs := rangesMinMax_isSome p.2 acc (Or.inr hne)
      rcases hmm2 : rangesMinMax acc p.2 with _ | ⟨w1, w2⟩
      · rw [hmm2] at hs
        simp at hs
      · have hb := (rangesMinMax_bounds p.2 acc w1 w2 hmm2).2 r hr
        have hw := h2.1 w1 w2 hmm2
        omega
    · exact h2.2 z hh r hr

theorem strMinMax_spec {s : ShardTimeRanges} {mn mx : Int} (h : strMinMax s = some (mn, mx)) :
    ∀ p ∈ s, ∀ r ∈ p.2, mn ≤ r.start ∧ r.stop ≤ mx :=
  (strMinMax_bounds s none mn mx h).2

theorem strMinMaxAux_isSome : ∀ (s : ShardTimeRanges) (acc : Option (Int × Int)),
    acc.isSome = true ∨ (∃ p ∈ s, p.2 ≠ []) →
    (s.foldl (fun a p => rangesMinMax a p.2) acc).isSome = true := by
  intro s
  induction s with
  | nil =>
    rintro acc (h | ⟨p, hp, _⟩)
    · exact h
    · exact absurd hp (List.not_mem_nil p)
  | cons p rest ih =>
    rintro acc (h | ⟨q, hq, hne⟩)
    · exact ih _ (Or.inl (rangesMinMax_isSome p.2 acc (Or.inl h)))
    · rcases List.mem_cons.mp hq with hh | hh
      · refine ih _ (Or.inl (rangesMinMax_isSome p.2 acc (Or.inr ?_)))
        rw [hh] at hne
        exact hne
      · exact ih _ (Or.inr ⟨q, hh, hne⟩)

theorem strMinMax_isSome {s : ShardTimeRanges} (h : strIsEmpty s = false) :
    (strMinMax s).isSome = true :=
  strMinMaxAux_isSome s none (Or.inr (strIsEmpty_false h))

theorem irLookup_irInsert_self : ∀ (r : IndexResults) (k : Int) (b : IndexBlock),
    irLookup (irInsert r k b) k = some b := by
  intro r
  induction r with
  | nil =>
    intro k b
    simp [irInsert, irLookup]
  | cons p rest ih =>
    intro k b
    simp only [irInsert]
    split
    · simp [irLookup]
    · rename_i hne
      simp only [irLookup, if_neg hne]
      exact ih k b

theorem irLookup_irInsert_ne : ∀ (r : IndexResults) (k k2 : Int) (b : IndexBlock),
    k2 ≠ k → irLookup (irInsert r k b) k2 = irLookup r k2 := by
  intro r
  induction r with
  | nil =>
    intro k k2 b hne
    simp only [irInsert, irLookup]
    rw [if_neg (fun hh => hne hh.symm)]
  | cons p rest ih =>
    intro k k2 b hne
    simp only [irInsert]
    split
    · rename_i heq
      simp only [irLookup]
      rw [if_neg (fun hh => hne hh.symm), if_neg (fun hh => hne ((heq.symm.trans hh).symm))]
    · simp only [irLookup]
      split
      · rfl
      · exact ih k k2 b hne

theorem find_first {α : Type} {p : α → Bool} : ∀ (pre : List α) (m : α) (post : List α),
    (∀ x ∈ pre, p x = false) → p m = true →
    List.find? p (pre ++ m :: post) = some m := by
  intro pre
  induction pre with
  | nil =>
    intro m post _ hm
    simp [List.find?_cons, hm]
  | cons x xs ih =>
    intro m post hall hm
    have hx := hall x (List.mem_cons_self x xs)
    simp only [List.cons_append, List.find?_cons, hx]
    exact ih m post (fun z hz => hall z (List.mem_cons_of_mem x hz)) hm

/-! Helper lemmas about IndexBlock.Merged and the results map. -/

theorem merged_segments_eq (a b : IndexBlock) :
    (a.Merged b).segments = a.segments ++ b.segments := by
  simp only [IndexBlock.Merged]
  split
  · rfl
  · rename_i hlen
    have hnil : b.segments = [] := by
      cases hb2 : b.segments with
      | nil => rfl
      | cons x xs =>
        rw [hb2] at hlen
        simp at hlen
    rw [hnil, List.append_nil]

theorem merged_fulfilled_eq (a b : IndexBlock) (hwb : strWf b.fulfilled) :
    (a.Merged b).fulfilled = strAddRanges a.fulfilled b.fulfilled := by
  simp only [IndexBlock.Merged]
  split
  · rename_i hemp
    rw [(strIsEmpty_iff_nil hwb).mp hemp, strAddRanges_nil_right]
  · rfl

theorem merged_new_mutable (block : IndexBlock) (key : Int) (m : Segment) :
    block.Merged (NewIndexBlock key [m] []) =
      ⟨block.blockStart, block.segments ++ [m], block.fulfilled⟩ := by
  simp [IndexBlock.Merged, NewIndexBlock, strIsEmpty]

theorem irLookup_mem : ∀ (r : IndexResults) (k : Int) (b : IndexBlock),
    irLookup r k = some b → (k, b) ∈ r := by
  intro r
  induction r with
  | nil =>
    intro k b h
    simp [irLookup] at h
  | cons p rest ih =>
    intro k b h
    simp only [irLookup] at h
    split at h
    · rename_i heq
      injection h with h2
      rw [← heq, ← h2]
      exact List.mem_cons_self p rest
    · exact List.mem_cons_of_mem p (ih k b h)

/-- C4: `Merged(a, b)` keeps `a`'s block start, concatenates `a.segments` with
`b.segments` in that order without deduplication, and its fulfilled ranges are
the union of `a.fulfilled` and `b.fulfilled` (computed by `AddRanges`, which
covers exactly the points covered by either operand and stays well-formed). -/
theorem IndexBlock_Merged_spec (a b : IndexBlock) (hstart : a.blockStart = b.blockStart)
    (hwa : strWf a.fulfilled) (hwb : strWf b.fulfilled) :
    (a.Merged b).blockStart = a.blockStart ∧
    (a.Merged b).segments = a.segments ++ b.segments ∧
    (a.Merged b).fulfilled = strAddRanges a.fulfilled b.fulfilled ∧
    strWf (a.Merged b).fulfilled ∧
    ∀ sh t, strCover (a.Merged b).fulfilled sh t ↔
      strCover a.fulfilled sh t ∨ strCover b.fulfilled sh t := by
  have hful := merged_fulfilled_eq a b hwb
  refine ⟨rfl, merged_segments_eq a b, hful, ?_, ?_⟩
  · rw [hful]
    exact strAddRanges_wf _ _ hwa
  · intro sh t
    rw [hful]
    exact strAddRanges_cover a.fulfilled b.fulfilled hwa sh t

/-- Witness for C4 at the spec's S4-style concrete blocks. -/
theorem IndexBlock_Merged_spec_witness :
    (IndexBlock.mk 3600 [Segment.mutableSeg 1] [(1, [TsRange.mk 0 600])]).blockStart =
      (IndexBlock.mk 3600 [Segment.immutableSeg 2] [(1, [TsRange.mk 300 900])]).blockStart ∧
    strWf [(1, [TsRange.mk 0 600])] ∧ strWf [(1, [TsRange.mk 300 900])] ∧
    ((IndexBlock.mk 3600 [Segment.mutableSeg 1] [(1, [TsRange.mk 0 600])]).Merged
        (IndexBlock.mk 3600 [Segment.immutableSeg 2] [(1, [TsRange.mk 300 900])])).segments =
      [Segment.mutableSeg 1] ++ [Segment.immutableSeg 2] :=
  ⟨rfl, by decide, by decide,
    (IndexBlock_Merged_spec
      (IndexBlock.mk 3600 [Segment.mutableSeg 1] [(1, [TsRange.mk 0 600])])
      (IndexBlock.mk 3600 [Segment.immutableSeg 2] [(1, [TsRange.mk 300 900])])
      rfl (by decide) (by decide)).2.1⟩

/-- C7: for equal-start blocks with point-disjoint fulfilled sets, merging in
either order yields the same fulfilled ranges, and both equal the union of the
two fulfilled sets. -/
theorem IndexBlock_Merged_comm_disjoint (a b : IndexBlock)
    (hstart : a.blockStart = b.blockStart)
    (hwa : strWf a.fulfilled) (hwb : strWf b.fulfilled)
    (hdisj : ∀ sh t, ¬ (strCover a.fulfilled sh t ∧ strCover b.fulfilled sh t)) :
    (a.Merged b).fulfilled = (b.Merged a).fulfilled ∧
    (a.Merged b).fulfilled = strAddRanges a.fulfilled b.fulfilled ∧
    ∀ sh t, strCover (a.Merged b).fulfilled sh t ↔
      strCover a.fulfilled sh t ∨ strCover b.fulfilled sh t := by
  have h1 := merged_fulfilled_eq a b hwb
  have h2 := merged_fulfilled_eq b a hwa
  refine ⟨?_, h1, ?_⟩
  · rw [h1, h2]
    exact strAddRanges_comm a.fulfilled b.fulfilled hwa hwb
  · intro sh t
    rw [h1]
    exact strAddRanges_cover a.fulfilled b.fulfilled hwa sh t

/-- Witness for C7 at concrete disjoint blocks (distinct shards). -/
theorem IndexBlock_Merged_comm_disjoint_witness :
    (IndexBlock.mk 3600 [] [(1, [TsRange.mk 0 600])]).blockStart =
      (IndexBlock.mk 3600 [] [(2, [TsRange.mk 0 600])]).blockStart ∧
    strWf [(1, [TsRange.mk 0 600])] ∧ strWf [(2, [TsRange.mk 0 600])] ∧
    ((IndexBlock.mk 3600 [] [(1, [TsRange.mk 0 600])]).Merged
        (IndexBlock.mk 3600 [] [(2, [TsRange.mk 0 600])])).fulfilled =
      ((IndexBlock.mk 3600 [] [(2, [TsRange.mk 0 600])]).Merged
        (IndexBlock.mk 3600 [] [(1, [TsRange.mk 0 600])])).fulfilled :=
  ⟨rfl, by decide, by decide,
    (IndexBlock_Merged_comm_disjoint
      (IndexBlock.mk 3600 [] [(1, [TsRange.mk 0 600])])
      (IndexBlock.mk 3600 [] [(2, [TsRange.mk 0 600])])
      rfl (by decide) (by decide)
      (by
        intro sh t hct
        obtain ⟨h1, h2⟩ := hct
        obtain ⟨p1, hp1, hk1, _⟩ := h1
        obtain ⟨p2, hp2, hk2, _⟩ := h2
        simp only [List.mem_singleton] at hp1 hp2
        rw [hp1] at hk1
        rw [hp2] at hk2
        simp only at hk1 hk2
        omega)).1⟩

/-- C8: `Add(block)` leaves the accumulator unchanged when the block's start
instant is zero; otherwise the entry at the block-start key becomes the block
itself when absent, or the existing entry merged with the block, and every
other key is unchanged. -/
theorem IndexResults_Add_spec (r : IndexResults) (b : IndexBlock) :
    (b.blockStart = 0 → IndexResults.Add r b = r) ∧
    (b.blockStart ≠ 0 → ∀ k, irLookup (IndexResults.Add r b) k =
      if k = b.blockStart then
        some (((irLookup r b.blockStart).map (fun e => e.Merged b)).getD b)
      else irLookup r k) := by
  constructor
  · intro h0
    simp [IndexResults.Add, h0]
  · intro h0 k
    simp only [IndexResults.Add, if_neg h0]
    split
    · rename_i hl
      by_cases hk : k = b.blockStart
      · rw [hk, irLookup_irInsert_self, if_pos rfl, hl]
        rfl
      · rw [irLookup_irInsert_ne r b.blockStart k b hk, if_neg hk]
    · rename_i e hl
      by_cases hk : k = b.blockStart
      · rw [hk, irLookup_irInsert_self, if_pos rfl, hl]
        rfl
      · rw [irLookup_irInsert_ne _ _ _ _ hk, if_neg hk]

/-- Witness for C8: adding a block with nonzero start to the empty map stores
it, and the zero-start case leaves the map unchanged. -/
theorem IndexResults_Add_spec_witness :
    ((3600 : Int) ≠ 0) ∧
    irLookup (IndexResults.Add [] (IndexBlock.mk 3600 [] [])) 3600 =
      some (IndexBlock.mk 3600 [] []) :=
  ⟨by decide, by
    have h := (IndexResults_Add_spec [] (IndexBlock.mk 3600 [] [])).2 (by decide) 3600
    simpa using h⟩

/-- C5: `MergedIndexBootstrapResult` returns the other operand when one is
absent; otherwise it folds the other operand's index results and unfulfilled
ranges into whichever operand has the larger total segment count (the left
operand on ties) and returns that base; merging any result with an empty
result yields that result unchanged. -/
theorem MergedIndexBootstrapResult_spec (i j : IndexBootstrapResultS) :
    MergedIndexBootstrapResult none (some j) = some j ∧
    MergedIndexBootstrapResult (some i) none = some i ∧
    MergedIndexBootstrapResult none none = none ∧
    (totalSegments j.results ≤ totalSegments i.results →
      MergedIndexBootstrapResult (some i) (some j) =
        some ⟨IndexResults.AddResults i.results j.results,
              strAddRanges i.unfulfilled j.unfulfilled⟩) ∧
    (totalSegments i.results < totalSegments j.results →
      MergedIndexBootstrapResult (some i) (some j) =
        some ⟨IndexResults.AddResults j.results i.results,
              strAddRanges j.unfulfilled i.unfulfilled⟩) ∧
    MergedIndexBootstrapResult (some i) (some NewIndexBootstrapResult) = some i := by
  refine ⟨rfl, rfl, rfl, ?_, ?_, ?_⟩
  · intro h
    simp only [MergedIndexBootstrapResult]
    rw [if_pos h]
  · intro h
    simp only [MergedIndexBootstrapResult]
    rw [if_neg (by omega)]
  · simp only [MergedIndexBootstrapResult]
    rw [if_pos (by simp [NewIndexBootstrapResult, totalSegments])]
    show some ⟨IndexResults.AddResults i.results [], strAddRanges i.unfulfilled []⟩ = some i
    rw [strAddRanges_nil_right]
    rfl

/-- Witness for C5 at concrete results. -/
theorem MergedIndexBootstrapResult_spec_witness :
    totalSegments (IndexBootstrapResultS.mk [] [] |>.results) ≤
      totalSegments (IndexBootstrapResultS.mk [] [] |>.results) ∧
    MergedIndexBootstrapResult (some (IndexBootstrapResultS.mk [] []))
        (some (IndexBootstrapResultS.mk [] [])) =
      some ⟨IndexResults.AddResults [] [], strAddRanges [] []⟩ :=
  ⟨by decide,
    (MergedIndexBootstrapResult_spec ⟨[], []⟩ ⟨[], []⟩).2.2.2.1 (by decide)⟩

/-! GetOrAddSegment helper lemmas. -/

theorem goa_first_mutable (r : IndexResults) (t bs : Int) (alloc : Option Nat)
    (block : IndexBlock) (hfound : irLookup r (truncateTime t bs) = some block)
    (pre post : List Segment) (m : Segment) (hseg : block.segments = pre ++ m :: post)
    (hm : Segment.isMutable m = true) (hpre : ∀ x ∈ pre, Segment.isMutable x = false) :
    IndexResults.GetOrAddSegment r t bs alloc = (r, some m) := by
  have hfind : block.segments.find? Segment.isMutable = some m := by
    rw [hseg]
    exact find_first pre m post hpre hm
  simp [IndexResults.GetOrAddSegment, hfound, hfind]

theorem goa_alloc_existing (r : IndexResults) (t bs : Int) (mid : Nat)
    (block : IndexBlock) (hfound : irLookup r (truncateTime t bs) = some block)
    (hnone : ∀ x ∈ block.segments, Segment.isMutable x = false) :
    IndexResults.GetOrAddSegment r t bs (some mid) =
      (irInsert r (truncateTime t bs)
        ⟨block.blockStart, block.segments ++ [Segment.mutableSeg mid], block.fulfilled⟩,
       some (Segment.mutableSeg mid)) := by
  have hfind : block.segments.find? Segment.isMutable = none := by
    rw [List.find?_eq_none]
    intro x hx
    rw [hnone x hx]
    simp
  simp [IndexResults.GetOrAddSegment, hfound, hfind, merged_new_mutable]

theorem goa_alloc_absent (r : IndexResults) (t bs : Int) (mid : Nat)
    (hfound : irLookup r (truncateTime t bs) = none) :
    IndexResults.GetOrAddSegment r t bs (some mid) =
      (irInsert (irInsert r (truncateTime t bs) (NewIndexBlock (truncateTime t bs) [] []))
         (truncateTime t bs)
         ⟨truncateTime t bs, [Segment.mutableSeg mid], []⟩,
       some (Segment.mutableSeg mid)) := by
  have hmerged := merged_new_mutable (NewIndexBlock (truncateTime t bs) [] [])
    (truncateTime t bs) (Segment.mutableSeg mid)
  simp only [NewIndexBlock, List.nil_append] at hmerged
  simp [IndexResults.GetOrAddSegment, hfound, NewIndexBlock, hmerged]

theorem goa_alloc_fail_absent (r : IndexResults) (t bs : Int)
    (hfound : irLookup r (truncateTime t bs) = none) :
    IndexResults.GetOrAddSegment r t bs none =
      (irInsert r (truncateTime t bs) (NewIndexBlock (truncateTime t bs) [] []), none) := by
  simp [IndexResults.GetOrAddSegment, hfound, NewIndexBlock]

theorem goa_alloc_fail_existing (r : IndexResults) (t bs : Int)
    (block : IndexBlock) (hfound : irLookup r (truncateTime t bs) = some block)
    (hnone : ∀ x ∈ block.segments, Segment.isMutable x = false) :
    IndexResults.GetOrAddSegment r t bs none = (r, none) := by
  have hfind : block.segments.find? Segment.isMutable = none := by
    rw [List.find?_eq_none]
    intro x hx
    rw [hnone x hx]
    simp
  simp [IndexResults.GetOrAddSegment, hfound, hfind]

theorem goa_found_mutable_general (r : IndexResults) (t bs : Int) (alloc : Option Nat)
    (block : IndexBlock) (hfound : irLookup r (truncateTime t bs) = some block)
    (m : Segment) (hfind : block.segments.find? Segment.isMutable = some m) :
    IndexResults.GetOrAddSegment r t bs alloc = (r, some m) := by
  simp [IndexResults.GetOrAddSegment, hfound, hfind]

/-- C2: `GetOrAddSegment(t, idxopts, opts)` operates on the entry keyed by `t`
truncated to the index block size, creating it if absent and touching no other
key; if the block's segment list has a mutable segment it returns the first
such segment; otherwise it allocates a new mutable segment via the allocator,
appends it after all existing segments of the block (preserving them), stores
the updated block, and returns it; a returned segment always belongs to the
block stored at the aligned key, whose start instant is the truncation of `t`
whenever the map satisfies the data-model key invariant. -/
theorem IndexResults_GetOrAddSegment_spec (r : IndexResults) (t bs : Int) (alloc : Option Nat) :
    (∀ k, k ≠ truncateTime t bs →
      irLookup (IndexResults.GetOrAddSegment r t bs alloc).1 k = irLookup r k) ∧
    (irLookup (IndexResults.GetOrAddSegment r t bs alloc).1 (truncateTime t bs)).isSome = true ∧
    (∀ block, irLookup r (truncateTime t bs) = some block →
      ∀ pre m post, block.segments = pre ++ m :: post → Segment.isMutable m = true →
        (∀ x ∈ pre, Segment.isMutable x = false) →
        IndexResults.GetOrAddSegment r t bs alloc = (r, some m)) ∧
    (∀ mid, alloc = some mid →
      (∀ block, irLookup r (truncateTime t bs) = some block →
        (∀ x ∈ block.segments, Segment.isMutable x = false) →
        IndexResults.GetOrAddSegment r t bs alloc =
          (irInsert r (truncateTime t bs)
            ⟨block.blockStart, block.segments ++ [Segment.mutableSeg mid], block.fulfilled⟩,
           some (Segment.mutableSeg mid))) ∧
      (irLookup r (truncateTime t bs) = none →
        (IndexResults.GetOrAddSegment r t bs alloc).2 = some (Segment.mutableSeg mid) ∧
        irLookup (IndexResults.GetOrAddSegment r t bs alloc).1 (truncateTime t bs) =
          some ⟨truncateTime t bs, [Segment.mutableSeg mid], []⟩)) ∧
    ∀ seg, (IndexResults.GetOrAddSegment r t bs alloc).2 = some seg →
      ∃ blk, irLookup (IndexResults.GetOrAddSegment r t bs alloc).1 (truncateTime t bs) =
          some blk ∧ seg ∈ blk.segments ∧
        (irCoherent r → blk.blockStart = truncateTime t bs) := by
  refine ⟨?_, ?_, ?_, ?_, ?_⟩
  · -- frame: other keys unchanged
    intro k hk
    rcases hfound : irLookup r (truncateTime t bs) with _ | b
    · rcases alloc with _ | mid
      · rw [goa_alloc_fail_absent r t bs hfound]
        exact irLookup_irInsert_ne _ _ _ _ hk
      · rw [goa_alloc_absent r t bs mid hfound]
        rw [irLookup_irInsert_ne _ _ _ _ hk]
        exact irLookup_irInsert_ne _ _ _ _ hk
    · rcases hfind : b.segments.find? Segment.isMutable with _ | m
      · have hnone : ∀ x ∈ b.segments, Segment.isMutable x = false := by
          intro x hx
          have := List.find?_eq_none.mp hfind x hx
          simpa using this
        rcases alloc with _ | mid
        · rw [goa_alloc_fail_existing r t bs b hfound hnone]
        · rw [goa_alloc_existing r t bs mid b hfound hnone]
          exact irLookup_irInsert_ne _ _ _ _ hk
      · rw [goa_found_mutable_general r t bs alloc b hfound m hfind]
  · -- the aligned entry exists afterwards
    rcases hfound : irLookup r (truncateTime t bs) with _ | b
    · rcases alloc with _ | mid
      · rw [goa_alloc_fail_absent r t bs hfound]
        simp [irLookup_irInsert_self]
      · rw [goa_alloc_absent r t bs mid hfound]
        simp [irLookup_irInsert_self]
    · rcases hfind : b.segments.find? Segment.isMutable with _ | m
      · have hnone : ∀ x ∈ b.segments, Segment.isMutable x = false := by
          intro x hx
          have := List.find?_eq_none.mp hfind x hx
          simpa using this
        rcases alloc with _ | mid
        · rw [goa_alloc_fail_existing r t bs b hfound hnone]
          simp [hfound]
        · rw [goa_alloc_existing r t bs mid b hfound hnone]
          simp [irLookup_irInsert_self]
      · rw [goa_found_mutable_general r t bs alloc b hfound m hfind]
        simp [hfound]
  · -- first mutable segment is returned
    intro block hfound pre m post hseg hm hpre
    exact goa_first_mutable r t bs alloc block hfound pre post m hseg hm hpre
  · -- allocation path
    intro mid hmid
    subst hmid
    constructor
    · intro block hfound hnone
      exact goa_alloc_existing r t bs mid block hfound hnone
    · intro hfound
      rw [goa_alloc_absent r t bs mid hfound]
      exact ⟨rfl, irLookup_irInsert_self _ _ _⟩
  · -- alignment of the returned segment
    intro seg hseg
    rcases hfound : irLookup r (truncateTime t bs) with _ | b
    · rcases alloc with _ | mid
      · rw [goa_alloc_fail_absent r t bs hfound] at hseg ⊢
        simp at hseg
      · rw [goa_alloc_absent r t bs mid hfound] at hseg ⊢
        simp only at hseg
        injection hseg with hseg2
        refine ⟨⟨truncateTime t bs, [Segment.mutableSeg mid], []⟩,
          irLookup_irInsert_self _ _ _, ?_, fun _ => rfl⟩
        rw [← hseg2]
        exact List.mem_singleton.mpr rfl
    · rcases hfind : b.segments.find? Segment.isMutable with _ | m
      · have hnone : ∀ x ∈ b.segments, Segment.isMutable x = false := by
          intro x hx
          have := List.find?_eq_none.mp hfind x hx
          simpa using this
        rcases alloc with _ | mid
        · rw [goa_alloc_fail_existing r t bs b hfound hnone] at hseg
          simp at hseg
        · rw [goa_alloc_existing r t bs mid b hfound hnone] at hseg ⊢
          simp only at hseg
          injection hseg with hseg2
          refine ⟨⟨b.blockStart, b.segments ++ [Segment.mutableSeg mid], b.fulfilled⟩,
            irLookup_irInsert_self _ _ _, ?_, ?_⟩
          · rw [← hseg2]
            exact List.mem_append_right _ (List.mem_singleton.mpr rfl)
          · intro hc
            exact hc (truncateTime t bs, b) (irLookup_mem r (truncateTime t bs) b hfound)
      · rw [goa_found_mutable_general r t bs alloc b hfound m hfind] at hseg ⊢
        simp only at hseg
        injection hseg with hseg2
        refine ⟨b, hfound, ?_, ?_⟩
        · rw [← hseg2]
          exact List.mem_of_find?_eq_some hfind
        · intro hc
          exact hc (truncateTime t bs, b) (irLookup_mem r (truncateTime t bs) b hfound)

/-- Witness for C2: on an empty map with a successful allocator, the fresh
mutable segment is returned and stored in the block at the aligned key. -/
theorem IndexResults_GetOrAddSegment_spec_witness :
    irLookup ([] : IndexResults) (truncateTime 5000 3600) = none ∧
    (IndexResults.GetOrAddSegment [] 5000 3600 (some 7)).2 = some (Segment.mutableSeg 7) :=
  ⟨rfl, (((IndexResults_GetOrAddSegment_spec [] 5000 3600 (some 7)).2.2.2.1 7 rfl).2 rfl).1⟩

/-- C3: `MarkFulfilled(t, fulfilled, idxopts)` aligns `t` to the index block
size and returns the `RangeOutOfBlock` error exactly when the fulfilled
ranges' MinMax does not lie within the aligned half-open block window; on
error the accumulator is unchanged; on success the fulfilled ranges are merged
into the fulfilled ranges of the block at the aligned start, other keys being
untouched. -/
theorem IndexResults_MarkFulfilled_spec (r : IndexResults) (t bs : Int)
    (f : ShardTimeRanges) (mn mx : Int) (hmm : strMinMax f = some (mn, mx))
    (hne : strIsEmpty f = false) :
    ((IndexResults.MarkFulfilled r t f bs).2 = true ↔
      ¬ (truncateTime t bs ≤ mn ∧ mx ≤ truncateTime t bs + bs)) ∧
    ((IndexResults.MarkFulfilled r t f bs).2 = true →
      (IndexResults.MarkFulfilled r t f bs).1 = r) ∧
    ((IndexResults.MarkFulfilled r t f bs).2 = false →
      (∀ k, k ≠ truncateTime t bs →
        irLookup (IndexResults.MarkFulfilled r t f bs).1 k = irLookup r k) ∧
      ∃ blk, irLookup (IndexResults.MarkFulfilled r t f bs).1 (truncateTime t bs) = some blk ∧
        blk.fulfilled = strAddRanges
          (((irLookup r (truncateTime t bs)).map (fun e => e.fulfilled)).getD []) f) := by
  simp only [IndexResults.MarkFulfilled, hmm]
  by_cases hcond : mn < truncateTime t bs ∨ truncateTime t bs + bs < mx
  · rw [if_pos hcond]
    refine ⟨?_, fun _ => rfl, ?_⟩
    · constructor
      · intro _
        omega
      · intro _
        rfl
    · intro h
      simp at h
  · rw [if_neg hcond]
    refine ⟨?_, ?_, ?_⟩
    · constructor
      · intro h
        simp at h
      · intro h
        exfalso
        apply h
        omega
    · intro h
      simp at h
    · intro _
      refine ⟨fun k hk => irLookup_irInsert_ne _ _ _ _ hk,
        _, irLookup_irInsert_self _ _ _, ?_⟩
      rcases hfound : irLookup r (truncateTime t bs) with _ | e
      · simp [IndexBlock.Merged, NewIndexBlock, hne]
      · simp [IndexBlock.Merged, NewIndexBlock, hne]

/-- Witness for C3: an in-window fulfilled map on an empty accumulator does
not produce the error. -/
theorem IndexResults_MarkFulfilled_spec_witness :
    strMinMax [(1, [TsRange.mk 0 600])] = some (0, 600) ∧
    strIsEmpty [(1, [TsRange.mk 0 600])] = false ∧
    ((IndexResults.MarkFulfilled [] 0 [(1, [TsRange.mk 0 600])] 3600).2 = true ↔
      ¬ (truncateTime 0 3600 ≤ 0 ∧ 600 ≤ truncateTime 0 3600 + 3600)) :=
  ⟨by decide, by decide,
    (IndexResults_MarkFulfilled_spec [] 0 3600 [(1, [TsRange.mk 0 600])] 0 600
      (by decide) (by decide)).1⟩

/-- C6: if every fulfilled range of the block at the aligned start already
lies within the aligned block window, then after a successful MarkFulfilled
every range of that block's fulfilled set still lies within the window. -/
theorem IndexResults_MarkFulfilled_containment (r : IndexResults) (t bs : Int)
    (f : ShardTimeRanges)
    (hpre : ∀ blk, irLookup r (truncateTime t bs) = some blk →
      ∀ p ∈ blk.fulfilled, ∀ rg ∈ p.2,
        truncateTime t bs ≤ rg.start ∧ rg.stop ≤ truncateTime t bs + bs)
    (hok : (IndexResults.MarkFulfilled r t f bs).2 = false) :
    ∀ blk, irLookup (IndexResults.MarkFulfilled r t f bs).1 (truncateTime t bs) = some blk →
      ∀ p ∈ blk.fulfilled, ∀ rg ∈ p.2,
        truncateTime t bs ≤ rg.start ∧ rg.stop ≤ truncateTime t bs + bs := by
  rcases hmm : strMinMax f with _ | q
  · simp only [IndexResults.MarkFulfilled, hmm] at hok
    simp at hok
  · obtain ⟨mn, mx⟩ := q
    simp only [IndexResults.MarkFulfilled, hmm] at hok ⊢
    by_cases hcond : mn < truncateTime t bs ∨ truncateTime t bs + bs < mx
    · rw [if_pos hcond] at hok
      simp at hok
    · rw [if_neg hcond] at hok ⊢
      intro blk hblk
      rw [irLookup_irInsert_self] at hblk
      injection hblk with hblk
      rw [← hblk]
      have hf : ∀ p ∈ f, ∀ rg ∈ p.2,
          truncateTime t bs ≤ rg.start ∧ rg.stop ≤ truncateTime t bs + bs := by
        intro p hp rg hrg
        have := strMinMax_spec hmm p hp rg hrg
        omega
      have hemptybounds : ∀ p ∈ ([] : ShardTimeRanges), ∀ rg ∈ p.2,
          truncateTime t bs ≤ rg.start ∧ rg.stop ≤ truncateTime t bs + bs := by
        intro p hp
        exact absurd hp (List.not_mem_nil p)
      rcases hfound : irLookup r (truncateTime t bs) with _ | e
      · simp only [IndexBlock.Merged, NewIndexBlock]
        split
        · exact hemptybounds
        · exact strAddRanges_bounds [] f hemptybounds hf
      · simp only [IndexBlock.Merged, NewIndexBlock]
        split
        · exact hpre e hfound
        · exact strAddRanges_bounds e.fulfilled f (hpre e hfound) hf

/-- Witness for C6 at a concrete successful call on the empty accumulator. -/
theorem IndexResults_MarkFulfilled_containment_witness :
    (IndexResults.MarkFulfilled [] 0 [(1, [TsRange.mk 0 600])] 3600).2 = false ∧
    (truncateTime 0 3600 ≤ (TsRange.mk 0 600).start ∧
      (TsRange.mk 0 600).stop ≤ truncateTime 0 3600 + 3600) :=
  ⟨by decide,
    IndexResults_MarkFulfilled_containment [] 0 3600 [(1, [TsRange.mk 0 600])]
      (fun blk hblk => absurd hblk (by simp [irLookup]))
      (by decide)
      ⟨0, [], [(1, [TsRange.mk 0 600])]⟩ (by decide)
      (1, [TsRange.mk 0 600]) (by decide)
      (TsRange.mk 0 600) (by decide)⟩

/-! Commit log lemmas. -/

theorem clRunAux_append : ∀ (l1 l2 : List CLCmd) (s : CommitLogState),
    clRunAux s (l1 ++ l2) =
      ((clRunAux (clRunAux s l1).1 l2).1,
       (clRunAux s l1).2 ++ (clRunAux (clRunAux s l1).1 l2).2) := by
  intro l1
  induction l1 with
  | nil =>
    intro l2 s
    simp [clRunAux]
  | cons c cs ih =>
    intro l2 s
    have h1 : clRunAux s (c :: (cs ++ l2)) =
        ((clRunAux (clStep s c).1 (cs ++ l2)).1,
         (match (clStep s c).2 with
          | some w => [w]
          | none => []) ++ (clRunAux (clStep s c).1 (cs ++ l2)).2) := rfl
    have h2 : clRunAux s (c :: cs) =
        ((clRunAux (clStep s c).1 cs).1,
         (match (clStep s c).2 with
          | some w => [w]
          | none => []) ++ (clRunAux (clStep s c).1 cs).2) := rfl
    rw [List.cons_append, h1, h2, ih l2 (clStep s c).1]
    simp [List.append_assoc]

theorem clRun_invariant : ∀ (cs : List CLCmd) (s : CommitLogState),
    (s.opened = false → s.buffer = []) →
    ((clRunAux s cs).1.opened = false → (clRunAux s cs).1.buffer = []) ∧
    ∀ x, (clRunAux s cs).1.flushed.count x + (clRunAux s cs).1.buffer.count x =
      s.flushed.count x + s.buffer.count x + ((clRunAux s cs).2.count x) := by
  intro cs
  induction cs with
  | nil =>
    intro s hbuf
    exact ⟨hbuf, fun x => by simp [clRunAux]⟩
  | cons c cs ih =>
    intro s hbuf
    cases c with
    | write w =>
      by_cases hop : s.opened = true
      · cases hstrat : s.strategy with
        | writeWait =>
          have hstep : clStep s (CLCmd.write w) =
              ({ s with flushed := s.flushed ++ [w] }, some w) := by
            simp [clStep, hop, hstrat]
          have hrw : clRunAux s (CLCmd.write w :: cs) =
              ((clRunAux { s with flushed := s.flushed ++ [w] } cs).1,
               [w] ++ (clRunAux { s with flushed := s.flushed ++ [w] } cs).2) := by
            simp [clRunAux, hstep]
          have ih2 := ih { s with flushed := s.flushed ++ [w] } (fun hh => hbuf hh)
          rw [hrw]
          refine ⟨ih2.1, fun x => ?_⟩
          have hcount := ih2.2 x
          simp only [List.count_append, List.count_nil] at hcount ⊢
          omega
        | writeBehind =>
          have hstep : clStep s (CLCmd.write w) =
              ({ s with buffer := s.buffer ++ [w] }, some w) := by
            simp [clStep, hop, hstrat]
          have hrw : clRunAux s (CLCmd.write w :: cs) =
              ((clRunAux { s with buffer := s.buffer ++ [w] } cs).1,
               [w] ++ (clRunAux { s with buffer := s.buffer ++ [w] } cs).2) := by
            simp [clRunAux, hstep]
          have ih2 := ih { s with buffer := s.buffer ++ [w] }
            (fun hh => absurd (show s.opened = false from hh) (by rw [hop]; simp))
          rw [hrw]
          refine ⟨ih2.1, fun x => ?_⟩
          have hcount := ih2.2 x
          simp only [List.count_append, List.count_nil] at hcount ⊢
          omega
      · have hstep : clStep s (CLCmd.write w) = (s, none) := by
          simp only [clStep]
          rw [if_neg hop]
        have hrw : clRunAux s (CLCmd.write w :: cs) =
            ((clRunAux s cs).1, [] ++ (clRunAux s cs).2) := by
          simp [clRunAux, hstep]
        have ih2 := ih s hbuf
        rw [hrw]
        refine ⟨ih2.1, fun x => ?_⟩
        have hcount := ih2.2 x
        simp only [List.count_append, List.count_nil] at hcount ⊢
        omega
    | flush =>
      have hstep : clStep s CLCmd.flush =
          ({ s with flushed := s.flushed ++ s.buffer, buffer := [] }, none) := rfl
      have hrw : clRunAux s (CLCmd.flush :: cs) =
          ((clRunAux { s with flushed := s.flushed ++ s.buffer, buffer := [] } cs).1,
           [] ++ (clRunAux { s with flushed := s.flushed ++ s.buffer, buffer := [] } cs).2) := by
        simp [clRunAux, hstep]
      have ih2 := ih { s with flushed := s.flushed ++ s.buffer, buffer := [] }
        (fun _ => rfl)
      rw [hrw]
      refine ⟨ih2.1, fun x => ?_⟩
      have hcount := ih2.2 x
      simp only [List.count_append, List.count_nil] at hcount ⊢
      omega
    | close =>
      by_cases hop : s.opened = true
      · have hstep : clStep s CLCmd.close =
            ({ s with flushed := s.flushed ++ s.buffer, buffer := [], opened := false },
             none) := by
          simp only [clStep]
          rw [if_pos hop]
        have hrw : clRunAux s (CLCmd.close :: cs) =
            ((clRunAux
                { s with flushed := s.flushed ++ s.buffer, buffer := [], opened := false }
                cs).1,
             [] ++ (clRunAux
                { s with flushed := s.flushed ++ s.buffer, buffer := [], opened := false }
                cs).2) := by
          simp [clRunAux, hstep]
        have ih2 := ih
          { s with flushed := s.flushed ++ s.buffer, buffer := [], opened := false }
          (fun _ => rfl)
        rw [hrw]
        refine ⟨ih2.1, fun x => ?_⟩
        have hcount := ih2.2 x
        simp only [List.count_append, List.count_nil] at hcount ⊢
        omega
      · have hstep : clStep s CLCmd.close = (s, none) := by
          simp only [clStep]
          rw [if_neg hop]
        have hrw : clRunAux s (CLCmd.close :: cs) =
            ((clRunAux s cs).1, [] ++ (clRunAux s cs).2) := by
          simp [clRunAux, hstep]
        have ih2 := ih s hbuf
        rw [hrw]
        refine ⟨ih2.1, fun x => ?_⟩
        have hcount := ih2.2 x
        simp only [List.count_append, List.count_nil] at hcount ⊢
        omega

theorem clStep_close_opened (s : CommitLogState) : (clStep s CLCmd.close).1.opened = false := by
  simp only [clStep]
  split
  · rfl
  · rename_i hcond
    simp only [Bool.not_eq_true] at hcond
    exact hcond

/-- C1: for every command sequence driven against a freshly opened commit log
under either write strategy, after the trailing `Close()` a fresh iterator
over the log directory yields every accepted write exactly once (the multiset
of iterated records equals the multiset of accepted writes). -/
theorem commitLog_close_durable (strat : Strategy) (cs : List CLCmd) :
    ∀ x, (clIterate (clRunAux (clInit strat) (cs ++ [CLCmd.close])).1).count x =
      (clRunAux (clInit strat) (cs ++ [CLCmd.close])).2.count x := by
  intro x
  have hinv := clRun_invariant (cs ++ [CLCmd.close]) (clInit strat)
    (fun h => by simp [clInit] at h)
  have happ := clRunAux_append cs [CLCmd.close] (clInit strat)
  have hclosed : (clRunAux (clInit strat) (cs ++ [CLCmd.close])).1.opened = false := by
    rw [happ]
    show (clRunAux (clRunAux (clInit strat) cs).1 [CLCmd.close]).1.opened = false
    have hone : clRunAux (clRunAux (clInit strat) cs).1 [CLCmd.close] =
        ((clStep (clRunAux (clInit strat) cs).1 CLCmd.close).1,
         (match (clStep (clRunAux (clInit strat) cs).1 CLCmd.close).2 with
          | some w => [w]
          | none => []) ++ []) := rfl
    rw [hone]
    exact clStep_close_opened _
  have hempty := hinv.1 hclosed
  have hcount := hinv.2 x
  rw [hempty] at hcount
  simp only [clIterate, clInit, List.count_nil] at hcount ⊢
  omega

/-! Heap lemmas for the aliasing analysis of IndexBlock.Merged. -/

theorem heapFind_write_ne : ∀ (cells : List (Nat × ShardTimeRanges)) (ref ref2 : Nat)
    (v : ShardTimeRanges), ref2 ≠ ref →
    heapFind (cells.map (fun c => if c.1 = ref then (c.1, v) else c)) ref2 =
      heapFind cells ref2 := by
  intro cells
  induction cells with
  | nil =>
    intro ref ref2 v _
    rfl
  | cons c cells ih =>
    intro ref ref2 v hne
    by_cases hc : c.1 = ref
    · rw [List.map_cons, if_pos hc]
      show (if c.1 = ref2 then v
        else heapFind (cells.map (fun c => if c.1 = ref then (c.1, v) else c)) ref2) =
        if c.1 = ref2 then c.2 else heapFind cells ref2
      have hcc : ¬ c.1 = ref2 := by omega
      rw [if_neg hcc, if_neg hcc]
      exact ih ref ref2 v hne
    · rw [List.map_cons, if_neg hc]
      show (if c.1 = ref2 then c.2
        else heapFind (cells.map (fun c => if c.1 = ref then (c.1, v) else c)) ref2) =
        if c.1 = ref2 then c.2 else heapFind cells ref2
      by_cases h2 : c.1 = ref2
      · rw [if_pos h2, if_pos h2]
      · rw [if_neg h2, if_neg h2]
        exact ih ref ref2 v hne

theorem heapFind_append_ne : ∀ (cells : List (Nat × ShardTimeRanges))
    (x : Nat × ShardTimeRanges) (ref : Nat), ref ≠ x.1 →
    heapFind (cells ++ [x]) ref = heapFind cells ref := by
  intro cells
  induction cells with
  | nil =>
    intro x ref hne
    show (if x.1 = ref then x.2 else heapFind [] ref) = heapFind [] ref
    rw [if_neg (by omega)]
  | cons c cells ih =>
    intro x ref hne
    show (if c.1 = ref then c.2 else heapFind (cells ++ [x]) ref) =
      if c.1 = ref then c.2 else heapFind cells ref
    by_cases hc : c.1 = ref
    · rw [if_pos hc, if_pos hc]
    · rw [if_neg hc, if_neg hc]
      exact ih x ref hne

/-- Counterexample to C9 as stated: when the other block's fulfilled map is
empty, the Go code skips the copy, so the merged block's fulfilled field is
the very map object the receiver holds; mutating the result's fulfilled then
changes `a.Fulfilled()`. -/
theorem MergedRef_alias_counterexample :
    (MergedRef (STRHeap.mk [(0, [(1, [TsRange.mk 0 5])]), (1, [])] 2)
        (IndexBlockRef.mk 3600 [] 0) (IndexBlockRef.mk 3600 [] 1)).2.fulfilledRef =
      (IndexBlockRef.mk 3600 [] 0).fulfilledRef ∧
    heapRead
        (heapWrite
          (MergedRef (STRHeap.mk [(0, [(1, [TsRange.mk 0 5])]), (1, [])] 2)
            (IndexBlockRef.mk 3600 [] 0) (IndexBlockRef.mk 3600 [] 1)).1
          (MergedRef (STRHeap.mk [(0, [(1, [TsRange.mk 0 5])]), (1, [])] 2)
            (IndexBlockRef.mk 3600 [] 0) (IndexBlockRef.mk 3600 [] 1)).2.fulfilledRef
          [])
        (IndexBlockRef.mk 3600 [] 0).fulfilledRef ≠
      heapRead (STRHeap.mk [(0, [(1, [TsRange.mk 0 5])]), (1, [])] 2)
        (IndexBlockRef.mk 3600 [] 0).fulfilledRef := by
  decide

/-- Amended C9: `Merged` copies the fulfilled map only when the other block's
fulfilled is non-empty; in that case the result's fulfilled is freshly
allocated, aliases neither operand, and mutating it changes neither
`a.Fulfilled()` nor `b.Fulfilled()`; when the other block's fulfilled is
empty, the result's fulfilled aliases the receiver's map. -/
theorem MergedRef_copy_on_write (h : STRHeap) (a b : IndexBlockRef)
    (ha : a.fulfilledRef < h.next) (hb : b.fulfilledRef < h.next) :
    (strIsEmpty (heapRead h b.fulfilledRef) = true →
      (MergedRef h a b).2.fulfilledRef = a.fulfilledRef) ∧
    (strIsEmpty (heapRead h b.fulfilledRef) = false →
      (MergedRef h a b).2.fulfilledRef ≠ a.fulfilledRef ∧
      (MergedRef h a b).2.fulfilledRef ≠ b.fulfilledRef ∧
      ∀ v, heapRead (heapWrite (MergedRef h a b).1 (MergedRef h a b).2.fulfilledRef v)
            a.fulfilledRef = heapRead h a.fulfilledRef ∧
          heapRead (heapWrite (MergedRef h a b).1 (MergedRef h a b).2.fulfilledRef v)
            b.fulfilledRef = heapRead h b.fulfilledRef) := by
  constructor
  · intro hemp
    simp [MergedRef, hemp]
  · intro hemp
    have hm1 : (MergedRef h a b).2.fulfilledRef = h.next := by
      simp [MergedRef, hemp, heapAlloc]
    have hm2 : (MergedRef h a b).1.cells =
        h.cells ++ [(h.next, strAddRanges (heapRead h a.fulfilledRef)
          (heapRead h b.fulfilledRef))] := by
      simp [MergedRef, hemp, heapAlloc]
    refine ⟨by omega, by omega, ?_⟩
    intro v
    constructor
    · show heapFind ((MergedRef h a b).1.cells.map
          (fun c => if c.1 = (MergedRef h a b).2.fulfilledRef then (c.1, v) else c))
          a.fulfilledRef = heapFind h.cells a.fulfilledRef
      rw [heapFind_write_ne _ _ _ _ (by omega), hm2,
        heapFind_append_ne _ _ _ (by simp only; omega)]
    · show heapFind ((MergedRef h a b).1.cells.map
          (fun c => if c.1 = (MergedRef h a b).2.fulfilledRef then (c.1, v) else c))
          b.fulfilledRef = heapFind h.cells b.fulfilledRef
      rw [heapFind_write_ne _ _ _ _ (by omega), hm2,
        heapFind_append_ne _ _ _ (by simp only; omega)]

/-- Witness for the amended C9 at a concrete heap with a non-empty other
fulfilled map. -/
theorem MergedRef_copy_on_write_witness :
    ((0 : Nat) < 2 ∧ (1 : Nat) < 2) ∧
    strIsEmpty (heapRead (STRHeap.mk [(0, []), (1, [(2, [TsRange.mk 0 5])])] 2)
        (IndexBlockRef.mk 3600 [] 1).fulfilledRef) = false ∧
    (MergedRef (STRHeap.mk [(0, []), (1, [(2, [TsRange.mk 0 5])])] 2)
        (IndexBlockRef.mk 3600 [] 0) (IndexBlockRef.mk 3600 [] 1)).2.fulfilledRef ≠
      (IndexBlockRef.mk 3600 [] 0).fulfilledRef :=
  ⟨⟨by decide, by decide⟩, by decide,
    ((MergedRef_copy_on_write (STRHeap.mk [(0, []), (1, [(2, [TsRange.mk 0 5])])] 2)
        (IndexBlockRef.mk 3600 [] 0) (IndexBlockRef.mk 3600 [] 1)
        (by decide) (by decide)).2 (by decide)).1⟩

/-! Segment reader lemmas. -/

theorem take_append_drop_length (n : Nat) (l : List Nat) :
    l.take n ++ l.drop ((l.take n).length) = l := by
  rw [List.length_take]
  by_cases h : n ≤ l.length
  · rw [min_eq_left h]
    exact List.take_append_drop n l
  · rw [min_eq_right (by omega), List.drop_length,
      List.take_of_length_le (by omega)]
    simp

theorem SegmentReader_Read_step (sr : SegmentReader) (blen : Nat) (hb : 0 < blen)
    (hsi : sr.si < sr.head.length + sr.tail.length) :
    sr.Read blen = ⟨((sr.head ++ sr.tail).drop sr.si).take blen, false,
      { sr with si := sr.si + (((sr.head ++ sr.tail).drop sr.si).take blen).length }⟩ := by
  have hdrop : (sr.head ++ sr.tail).drop sr.si =
      sr.head.drop sr.si ++ sr.tail.drop (sr.si - sr.head.length) :=
    List.drop_append_eq_append_drop
  simp only [SegmentReader.Read]
  rw [if_neg (by omega), if_neg (by omega)]
  by_cases h1 : sr.si < sr.head.length
  · rw [if_pos h1]
    have hsub0 : sr.si - sr.head.length = 0 := by omega
    have hdrop2 : (sr.head ++ sr.tail).drop sr.si = sr.head.drop sr.si ++ sr.tail := by
      rw [hdrop, hsub0, List.drop_zero]
    by_cases h2 : ((sr.head.drop sr.si).take blen).length = blen
    · rw [if_pos h2]
      have hble : blen ≤ sr.head.length - sr.si := by
        rw [List.length_take, List.length_drop] at h2
        omega
      have hbytes : ((sr.head ++ sr.tail).drop sr.si).take blen =
          (sr.head.drop sr.si).take blen := by
        rw [hdrop2, List.take_append_eq_append_take]
        have hz : blen - (sr.head.drop sr.si).length = 0 := by
          rw [List.length_drop]
          omega
        rw [hz, List.take_zero, List.append_nil]
      rw [hbytes]
    · rw [if_neg h2]
      have hlt : sr.head.length - sr.si < blen := by
        rw [List.length_take, List.length_drop] at h2
        omega
      have hstep1 : (sr.head.drop sr.si).take blen = sr.head.drop sr.si :=
        List.take_of_length_le (by rw [List.length_drop]; omega)
      rw [hstep1]
      have hsi1 : sr.si + (sr.head.drop sr.si).length = sr.head.length := by
        rw [List.length_drop]
        omega
      rw [hsi1]
      by_cases hnt : 0 < sr.tail.length
      · rw [if_pos (show sr.head.length < sr.head.length + sr.tail.length from by omega),
          Nat.sub_self, List.drop_zero]
        have hne0 : ¬ (sr.head.drop sr.si ++
            sr.tail.take (blen - (sr.head.drop sr.si).length)).length = 0 := by
          rw [List.length_append, List.length_drop]
          omega
        rw [if_neg hne0]
        have hbytes : ((sr.head ++ sr.tail).drop sr.si).take blen =
            sr.head.drop sr.si ++ sr.tail.take (blen - (sr.head.drop sr.si).length) := by
          rw [hdrop2, List.take_append_eq_append_take, hstep1]
        have hsieq : sr.head.length +
            (sr.tail.take (blen - (sr.head.drop sr.si).length)).length =
            sr.si + (sr.head.drop sr.si ++
              sr.tail.take (blen - (sr.head.drop sr.si).length)).length := by
          rw [List.length_append, List.length_drop]
          omega
        rw [hbytes, hsieq]
      · rw [if_neg (show ¬ sr.head.length < sr.head.length + sr.tail.length from by omega)]
        have htail : sr.tail = [] := List.eq_nil_of_length_eq_zero (by omega)
        have hne0 : ¬ (sr.head.drop sr.si ++ ([] : List Nat)).length = 0 := by
          rw [List.length_append, List.length_drop]
          simp
          omega
        rw [if_neg hne0]
        have hbytes : ((sr.head ++ sr.tail).drop sr.si).take blen =
            sr.head.drop sr.si ++ ([] : List Nat) := by
          rw [hdrop2, htail, List.append_nil]
          exact hstep1
        have hsieq : sr.head.length + ([] : List Nat).length =
            sr.si + (sr.head.drop sr.si ++ ([] : List Nat)).length := by
          rw [List.length_append, List.length_drop]
          simp only [List.length_nil]
          omega
        rw [hbytes, hsieq]
  · rw [if_neg h1]
    simp only [List.length_nil, Nat.add_zero, Nat.sub_zero]
    rw [if_neg (show ¬ (0 = blen) from by omega)]
    rw [if_pos hsi]
    have hne0 : ¬ (([] : List Nat) ++
        (sr.tail.drop (sr.si - sr.head.length)).take blen).length = 0 := by
      rw [List.nil_append, List.length_take, List.length_drop]
      omega
    rw [if_neg hne0]
    have hbytes : ((sr.head ++ sr.tail).drop sr.si).take blen =
        ([] : List Nat) ++ (sr.tail.drop (sr.si - sr.head.length)).take blen := by
      rw [hdrop, List.drop_eq_nil_of_le (by omega), List.nil_append, List.nil_append]
    have hsieq : sr.si + ((sr.tail.drop (sr.si - sr.head.length)).take blen).length =
        sr.si + (([] : List Nat) ++
          (sr.tail.drop (sr.si - sr.head.length)).take blen).length := by
      rw [List.nil_append]
    rw [hbytes, hsieq]

theorem SegmentReader_Read_eof (sr : SegmentReader) (blen : Nat) (hb : 0 < blen) :
    (sr.Read blen).isEOF = true ↔ sr.head.length + sr.tail.length ≤ sr.si := by
  constructor
  · intro h
    by_contra hlt
    rw [SegmentReader_Read_step sr blen hb (by omega)] at h
    simp at h
  · intro h
    simp only [SegmentReader.Read]
    rw [if_neg (by omega), if_pos h]

theorem SegmentReader_ReadAll_drop (blen : Nat) (hb : 0 < blen) :
    ∀ (fuel : Nat) (sr : SegmentReader),
      sr.head.length + sr.tail.length - sr.si ≤ fuel →
      sr.ReadAll blen fuel = (sr.head ++ sr.tail).drop sr.si := by
  intro fuel
  induction fuel with
  | zero =>
    intro sr hf
    have hnil : (sr.head ++ sr.tail).drop sr.si = [] :=
      List.drop_eq_nil_of_le (by rw [List.length_append]; omega)
    rw [hnil]
    rfl
  | succ fuel ih =>
    intro sr hf
    have hrall : sr.ReadAll blen (fuel + 1) =
        (if (sr.Read blen).isEOF then []
         else (sr.Read blen).bytes ++ SegmentReader.ReadAll (sr.Read blen).reader blen fuel) :=
      rfl
    by_cases hsi : sr.si < sr.head.length + sr.tail.length
    · have hstep := SegmentReader_Read_step sr blen hb hsi
      rw [hrall, hstep]
      show (if false = true then []
        else ((sr.head ++ sr.tail).drop sr.si).take blen ++
          SegmentReader.ReadAll
            (SegmentReader.mk sr.head sr.tail
              (sr.si + (((sr.head ++ sr.tail).drop sr.si).take blen).length)) blen fuel) =
        (sr.head ++ sr.tail).drop sr.si
      rw [if_neg (by simp)]
      have hlen : 1 ≤ (((sr.head ++ sr.tail).drop sr.si).take blen).length := by
        rw [List.length_take, List.length_drop, List.length_append]
        omega
      have hih := ih (SegmentReader.mk sr.head sr.tail
          (sr.si + (((sr.head ++ sr.tail).drop sr.si).take blen).length))
        (by
          show sr.head.length + sr.tail.length -
            (sr.si + (((sr.head ++ sr.tail).drop sr.si).take blen).length) ≤ fuel
          omega)
      rw [hih]
      show ((sr.head ++ sr.tail).drop sr.si).take blen ++
          (sr.head ++ sr.tail).drop
            (sr.si + (((sr.head ++ sr.tail).drop sr.si).take blen).length) =
        (sr.head ++ sr.tail).drop sr.si
      rw [← List.drop_drop]
      exact take_append_drop_length blen ((sr.head ++ sr.tail).drop sr.si)
    · have heof : (sr.Read blen).isEOF = true :=
        (SegmentReader_Read_eof sr blen hb).mpr (by omega)
      rw [hrall, if_pos heof]
      exact (List.drop_eq_nil_of_le (by rw [List.length_append]; omega)).symm

/-- C10: a `Read` with an empty destination buffer returns `(0, nil)` even at
end of data; a `Read` with a non-empty buffer returns `io.EOF` exactly when
the read position is at or past the total data length; and the concatenation
of the bytes produced by successive `Read` calls equals the head bytes
followed by the tail bytes. -/
theorem segmentReader_Read_correct (sr : SegmentReader) (blen : Nat) :
    sr.Read 0 = ⟨[], false, sr⟩ ∧
    (0 < blen → ((sr.Read blen).isEOF = true ↔
      sr.head.length + sr.tail.length ≤ sr.si)) ∧
    (0 < blen → sr.si = 0 →
      sr.ReadAll blen (sr.head.length + sr.tail.length) = sr.head ++ sr.tail) := by
  refine ⟨rfl, fun hb => SegmentReader_Read_eof sr blen hb, fun hb h0 => ?_⟩
  have hall := SegmentReader_ReadAll_drop blen hb (sr.head.length + sr.tail.length) sr
    (by omega)
  rw [hall, h0, List.drop_zero]

/-- Witness for C10 at a concrete two-byte head and one-byte tail. -/
theorem segmentReader_Read_correct_witness :
    0 < 2 ∧
    SegmentReader.ReadAll (SegmentReader.mk [1, 2] [3] 0) 2 3 = [1, 2] ++ [3] :=
  ⟨by decide,
    (segmentReader_Read_correct (SegmentReader.mk [1, 2] [3] 0) 2).2.2 (by decide) rfl⟩
